import Mathlib

/-!
# tagmap: name/tag registry and the atomic tag store

A shallow embedding of `definitions.go`, `pkg/registry/registry.go`,
`pkg/stags/stags.go` and `pkg/tags/tags.go`.

* A Go `int` is an `Int` (a slice length never leaves the 64-bit range).
* A Go `map[K]V` is an association list with unique keys, read with `mapGet`
  and written with `mapSet`.
* A method that can panic returns an `Except String _` together with the
  receiver as it stands when the method returns or panics: a panic does not
  roll anything back.
* A slot of type `*V` is an `Option V`: `none` is the nil pointer.
* Threads interleave at the `sync/atomic` calls, which are sequentially
  consistent: a thread is a `Prog`, a schedule is a list of thread numbers.
-/

namespace tagmap

/-- The Go type `Tag` (`type Tag int`). -/
abbrev Tag := Int

/-- The Go type `TagName` (`type TagName string`). -/
abbrev TagName := String

/-- The constant `UnknownTag = Tag(-1)`. -/
def UnknownTag : Tag := -1

/-- Reading `m[k]` with the comma-ok form: `none` when the key is absent. -/
def mapGet {K V : Type} [DecidableEq K] : List (K × V) → K → Option V
  | [], _ => none
  | (k', v') :: m, k => if k' = k then some v' else mapGet m k

/-- The assignment `m[k] = v`: replaces the entry of `k` or adds one. -/
def mapSet {K V : Type} [DecidableEq K] : List (K × V) → K → V → List (K × V)
  | [], k, v => [(k, v)]
  | (k', v') :: m, k, v => if k' = k then (k, v) :: m else (k', v') :: mapSet m k v

end tagmap

namespace registry

open tagmap

/-- The struct `TagRegistry`: the slice `tags` and the map `backMap`. -/
structure TagRegistry where
  tags : List TagName
  backMap : List (TagName × Int)
  deriving DecidableEq, Repr

/-- The constructor `New`: an empty slice and an empty map. -/
def New : TagRegistry :=
  { tags := [], backMap := [] }

/-- The method `RegisterTag`: panics on a name found in `backMap`, otherwise
appends the name and records its index. -/
def RegisterTag (r : TagRegistry) (name : TagName) : Except String Tag × TagRegistry :=
  match mapGet r.backMap name with
  | some _ => (.error ("tag with name " ++ name ++ " is already registered"), r)
  | none =>
    let idx : Int := r.tags.length
    let r1 : TagRegistry := { r with tags := r.tags ++ [name] }
    let r2 : TagRegistry := { r1 with backMap := mapSet r1.backMap name idx }
    (.ok idx, r2)

/-- The method `RegisterOrReuseTag`: it has no panicking path, so it returns a
plain tag and the registry after the call. -/
def RegisterOrReuseTag (r : TagRegistry) (name : TagName) : Tag × TagRegistry :=
  match mapGet r.backMap name with
  | some idx => (idx, r)
  | none =>
    let idx : Int := r.tags.length
    let r1 : TagRegistry := { r with tags := r.tags ++ [name] }
    let r2 : TagRegistry := { r1 with backMap := mapSet r1.backMap name idx }
    (idx, r2)

/-- The method `GetName`: the slice index `r.tags[tag]`, which panics outside
`0 <= tag < len(r.tags)`. -/
def GetName (r : TagRegistry) (tag : Tag) : Except String TagName :=
  if 0 ≤ tag ∧ tag < r.tags.length then
    match r.tags[tag.toNat]? with
    | some name => .ok name
    | none => .error "index out of range"
  else .error "index out of range"

/-- The method `GetTag`: the recorded index, or `UnknownTag`. -/
def GetTag (r : TagRegistry) (name : TagName) : Tag :=
  match mapGet r.backMap name with
  | some idx => idx
  | none => UnknownTag

/-- The method `GetLen`. -/
def GetLen (r : TagRegistry) : Int :=
  r.tags.length

/-- One registration call made by a client of the registry. -/
inductive Call where
  | registerTag (name : TagName)
  | registerOrReuseTag (name : TagName)
  deriving DecidableEq, Repr

/-- The name a call is made with. -/
def Call.name : Call → TagName
  | .registerTag n => n
  | .registerOrReuseTag n => n

/-- Outcome and registry after one call. -/
def call (r : TagRegistry) : Call → Except String Tag × TagRegistry
  | .registerTag n => RegisterTag r n
  | .registerOrReuseTag n => ((.ok (RegisterOrReuseTag r n).1), (RegisterOrReuseTag r n).2)

/-- The registry after a sequence of calls; a caller that recovers from a
panic carries on with the registry as the panicking call left it. -/
def runCalls (r : TagRegistry) : List Call → TagRegistry
  | [] => r
  | c :: cs => runCalls (call r c).2 cs

/-- The outcomes of registering the names of a list with `RegisterTag`, in
order, and the registry afterwards. -/
def registerAll (r : TagRegistry) : List TagName → List (Except String Tag) × TagRegistry
  | [] => ([], r)
  | n :: ns =>
    let step := RegisterTag r n
    let rest := registerAll step.2 ns
    (step.1 :: rest.1, rest.2)

/-- A name is registered by a history of calls when one of them was made
with it. -/
def Registered (calls : List Call) (name : TagName) : Prop :=
  ∃ c ∈ calls, c.name = name

/-- The invariant behind the bijection: `backMap` holds exactly the pairs
`(tags[i], i)`. -/
def Inv (r : TagRegistry) : Prop :=
  ∀ (name : TagName) (idx : Int),
    mapGet r.backMap name = some idx ↔
      ∃ i : Nat, idx = (i : Int) ∧ r.tags[i]? = some name

end registry

namespace stags

open tagmap registry

/-- The struct `SafeTagMap[V]`: the slice of slots `values` and the registry
the store was built on. -/
structure SafeTagMap (V : Type) where
  values : List (Option V)
  registry : TagRegistry

/-- The constructor `New`: `r.GetLen()` nil slots. -/
def New {V : Type} (r : TagRegistry) : SafeTagMap V :=
  { registry := r, values := List.replicate (GetLen r).toNat none }

/-- The address `&m.values[tag]`: the bounds check of the slice index. -/
def slotIndex {V : Type} (values : List (Option V)) (tag : Tag) : Except String Nat :=
  if 0 ≤ tag ∧ tag < values.length then .ok tag.toNat else .error "index out of range"

/-- The call `atomic.LoadPointer` on a slot. -/
def LoadPointer {V : Type} (values : List (Option V)) (i : Nat) : Option V :=
  values.getD i none

/-- The call `atomic.StorePointer` on a slot. -/
def StorePointer {V : Type} (values : List (Option V)) (i : Nat) (p : Option V) :
    List (Option V) :=
  values.set i p

/-- The call `atomic.CompareAndSwapPointer` on a slot with the expected old
pointer nil, the only form the store uses. -/
def CompareAndSwapPointer {V : Type} (values : List (Option V)) (i : Nat) (p : Option V) :
    Bool × List (Option V) :=
  match LoadPointer values i with
  | none => (true, StorePointer values i p)
  | some _ => (false, values)

/-- The method `IsTagName`. -/
def IsTagName {V : Type} (m : SafeTagMap V) (name : TagName) : Bool :=
  GetTag m.registry name != UnknownTag

/-- The method `TagByName`. -/
def TagByName {V : Type} (m : SafeTagMap V) (name : TagName) : Tag :=
  GetTag m.registry name

/-- The method `getTag`: panics on a name without a tag. -/
def getTag {V : Type} (m : SafeTagMap V) (name : TagName) : Except String Tag :=
  let tag := TagByName m name
  if tag = UnknownTag then .error ("there is no such tag with name " ++ name) else .ok tag

/-- The method `GetByTag`: one atomic load; a nil slot reads as the zero
value `*new(V)`. -/
def GetByTag {V : Type} [Inhabited V] (m : SafeTagMap V) (tag : Tag) :
    Except String V × SafeTagMap V :=
  match slotIndex m.values tag with
  | .error e => (.error e, m)
  | .ok i =>
    match LoadPointer m.values i with
    | none => (.ok default, m)
    | some v => (.ok v, m)

/-- The method `GetByTagOrSet`: a compare-and-swap from nil to `&val`, and on
failure a second load whose result is dereferenced. -/
def GetByTagOrSet {V : Type} (m : SafeTagMap V) (tag : Tag) (val : V) :
    Except String (V × Bool) × SafeTagMap V :=
  match slotIndex m.values tag with
  | .error e => (.error e, m)
  | .ok i =>
    let cas := CompareAndSwapPointer m.values i (some val)
    let m1 : SafeTagMap V := { m with values := cas.2 }
    if cas.1 then (.ok (val, false), m1)
    else
      match slotIndex m1.values tag with
      | .error e => (.error e, m1)
      | .ok j =>
        match LoadPointer m1.values j with
        | none => (.error "nil pointer dereference", m1)
        | some v => (.ok (v, true), m1)

/-- The method `GetByTagAndDelete`: a load, then a store of nil. -/
def GetByTagAndDelete {V : Type} [Inhabited V] (m : SafeTagMap V) (tag : Tag) :
    Except String V × SafeTagMap V :=
  match slotIndex m.values tag with
  | .error e => (.error e, m)
  | .ok i =>
    let val := LoadPointer m.values i
    match slotIndex m.values tag with
    | .error e => (.error e, m)
    | .ok j =>
      let m1 : SafeTagMap V := { m with values := StorePointer m.values j none }
      match val with
      | none => (.ok default, m1)
      | some v => (.ok v, m1)

/-- The method `SetByTag`: a store of `&val`. -/
def SetByTag {V : Type} (m : SafeTagMap V) (tag : Tag) (val : V) :
    Except String Unit × SafeTagMap V :=
  match slotIndex m.values tag with
  | .error e => (.error e, m)
  | .ok i => (.ok (), { m with values := StorePointer m.values i (some val) })

/-- The method `DeleteByTag`: a store of nil. -/
def DeleteByTag {V : Type} (m : SafeTagMap V) (tag : Tag) :
    Except String Unit × SafeTagMap V :=
  match slotIndex m.values tag with
  | .error e => (.error e, m)
  | .ok i => (.ok (), { m with values := StorePointer m.values i none })

/-- The content of slot `tag` of a store, for a tag inside the slice. -/
def slot {V : Type} (m : SafeTagMap V) (tag : Tag) : Option V :=
  LoadPointer m.values tag.toNat

/-- A tag is in range for a store when it indexes its slice. -/
def InRange {V : Type} (m : SafeTagMap V) (tag : Tag) : Prop :=
  0 ≤ tag ∧ tag < m.values.length

/-- The registry of the store test: `tag1`, `tag2`, `tag3` registered in order
on a new registry. -/
def testRegistry : TagRegistry :=
  (registerAll registry.New ["tag1", "tag2", "tag3"]).2

/-- The store of the store test: `stags.New[string](r)`. -/
def testTagMap : SafeTagMap String :=
  New testRegistry

end stags

namespace stags

open tagmap registry

/-- The method `SetByTag2`: a store of the pointer `val`, which may be nil. -/
def SetByTag2 {V : Type} (m : SafeTagMap V) (tag : Tag) (val : Option V) :
    Except String Unit × SafeTagMap V :=
  match slotIndex m.values tag with
  | .error e => (.error e, m)
  | .ok i => (.ok (), { m with values := StorePointer m.values i val })

/-- The method `GetByTagOrSet2`: a compare-and-swap from nil to the pointer
`val`, and on failure a second load whose result is returned as a pointer. -/
def GetByTagOrSet2 {V : Type} (m : SafeTagMap V) (tag : Tag) (val : Option V) :
    Except String (Option V × Bool) × SafeTagMap V :=
  match slotIndex m.values tag with
  | .error e => (.error e, m)
  | .ok i =>
    let cas := CompareAndSwapPointer m.values i val
    let m1 : SafeTagMap V := { m with values := cas.2 }
    if cas.1 then (.ok (val, false), m1)
    else
      match slotIndex m1.values tag with
      | .error e => (.error e, m1)
      | .ok j => (.ok (LoadPointer m1.values j, true), m1)

/-- The method `GetByName`. -/
def GetByName {V : Type} [Inhabited V] (m : SafeTagMap V) (name : TagName) :
    Except String V × SafeTagMap V :=
  match getTag m name with
  | .error e => (.error e, m)
  | .ok tag => GetByTag m tag

/-- The method `SetByName`. -/
def SetByName {V : Type} (m : SafeTagMap V) (name : TagName) (val : V) :
    Except String Unit × SafeTagMap V :=
  match getTag m name with
  | .error e => (.error e, m)
  | .ok tag => SetByTag m tag val

/-- The method `SetByName2`. -/
def SetByName2 {V : Type} (m : SafeTagMap V) (name : TagName) (val : Option V) :
    Except String Unit × SafeTagMap V :=
  match getTag m name with
  | .error e => (.error e, m)
  | .ok tag => SetByTag2 m tag val

/-- The method `GetByNameOrSet`. -/
def GetByNameOrSet {V : Type} (m : SafeTagMap V) (name : TagName) (val : V) :
    Except String (V × Bool) × SafeTagMap V :=
  match getTag m name with
  | .error e => (.error e, m)
  | .ok tag => GetByTagOrSet m tag val

/-- The method `GetByNameOrSet2`. -/
def GetByNameOrSet2 {V : Type} (m : SafeTagMap V) (name : TagName) (val : Option V) :
    Except String (Option V × Bool) × SafeTagMap V :=
  match getTag m name with
  | .error e => (.error e, m)
  | .ok tag => GetByTagOrSet2 m tag val

/-- The method `GetByNameAndDelete`. -/
def GetByNameAndDelete {V : Type} [Inhabited V] (m : SafeTagMap V) (name : TagName) :
    Except String V × SafeTagMap V :=
  match getTag m name with
  | .error e => (.error e, m)
  | .ok tag => GetByTagAndDelete m tag

/-- The method `DeleteByName`. -/
def DeleteByName {V : Type} (m : SafeTagMap V) (name : TagName) :
    Except String Unit × SafeTagMap V :=
  match getTag m name with
  | .error e => (.error e, m)
  | .ok tag => DeleteByTag m tag

/-- The loop of `ValuesByTag` over the indices still to visit: a non-nil slot
is written into the map under its index. -/
def valuesByTagLoop {V : Type} (values : List (Option V)) :
    List Nat → List (Tag × V) → List (Tag × V)
  | [], out => out
  | tag :: rest, out =>
    match LoadPointer values tag with
    | none => valuesByTagLoop values rest out
    | some v => valuesByTagLoop values rest (mapSet out (tag : Int) v)

/-- The method `ValuesByTag`. -/
def ValuesByTag {V : Type} (m : SafeTagMap V) : List (Tag × V) :=
  valuesByTagLoop m.values (List.range m.values.length) []

/-- The loop of `ValuesByName` over the indices still to visit: a non-nil
slot is written into the map under `m.registry.GetName` of its index. -/
def valuesByNameLoop {V : Type} (m : SafeTagMap V) :
    List Nat → List (TagName × V) → Except String (List (TagName × V))
  | [], out => .ok out
  | tag :: rest, out =>
    match LoadPointer m.values tag with
    | none => valuesByNameLoop m rest out
    | some v =>
      match GetName m.registry (tag : Int) with
      | .error e => .error e
      | .ok name => valuesByNameLoop m rest (mapSet out name v)

/-- The method `ValuesByName`. -/
def ValuesByName {V : Type} (m : SafeTagMap V) : Except String (List (TagName × V)) :=
  valuesByNameLoop m (List.range m.values.length) []

/-- The loop of `GetValuesByName`: `out[idx] = m.GetByName(name)` for the
names still to visit. -/
def getValuesByNameLoop {V : Type} [Inhabited V] (m : SafeTagMap V) :
    List TagName → Nat → List V → Except String (List V) × SafeTagMap V
  | [], _, out => (.ok out, m)
  | name :: rest, idx, out =>
    match GetByName m name with
    | (.error e, m1) => (.error e, m1)
    | (.ok v, m1) => getValuesByNameLoop m1 rest (idx + 1) (out.set idx v)

/-- The method `GetValuesByName`. -/
def GetValuesByName {V : Type} [Inhabited V] (m : SafeTagMap V) (names : List TagName) :
    Except String (List V) × SafeTagMap V :=
  getValuesByNameLoop m names 0 (List.replicate names.length default)

/-- The loop of `GetValuesByTag`: `out[idx] = m.GetByTag(tag)` for the tags
still to visit. -/
def getValuesByTagLoop {V : Type} [Inhabited V] (m : SafeTagMap V) :
    List Tag → Nat → List V → Except String (List V) × SafeTagMap V
  | [], _, out => (.ok out, m)
  | tag :: rest, idx, out =>
    match GetByTag m tag with
    | (.error e, m1) => (.error e, m1)
    | (.ok v, m1) => getValuesByTagLoop m1 rest (idx + 1) (out.set idx v)

/-- The method `GetValuesByTag`. -/
def GetValuesByTag {V : Type} [Inhabited V] (m : SafeTagMap V) (tags : List Tag) :
    Except String (List V) × SafeTagMap V :=
  getValuesByTagLoop m tags 0 (List.replicate tags.length default)

/-- What a store method hands back. -/
inductive Ret (V : Type) where
  | unit
  | value (v : V)
  | found (v : V) (ok : Bool)
  | foundPtr (p : Option V) (ok : Bool)
  deriving DecidableEq, Repr

/-- A call of one of the by-tag methods. -/
inductive Op (V : Type) where
  | getByTag (tag : Tag)
  | setByTag (tag : Tag) (val : V)
  | setByTag2 (tag : Tag) (val : Option V)
  | getByTagOrSet (tag : Tag) (val : V)
  | getByTagOrSet2 (tag : Tag) (val : Option V)
  | getByTagAndDelete (tag : Tag)
  | deleteByTag (tag : Tag)

/-- The tag a by-tag call is made with. -/
def Op.tag {V : Type} : Op V → Tag
  | .getByTag t => t
  | .setByTag t _ => t
  | .setByTag2 t _ => t
  | .getByTagOrSet t _ => t
  | .getByTagOrSet2 t _ => t
  | .getByTagAndDelete t => t
  | .deleteByTag t => t

/-- Outcome and store after one by-tag call. -/
def Op.run {V : Type} [Inhabited V] (m : SafeTagMap V) : Op V → Except String (Ret V) × SafeTagMap V
  | .getByTag t => ((GetByTag m t).1.map Ret.value, (GetByTag m t).2)
  | .setByTag t v => ((SetByTag m t v).1.map (fun _ => Ret.unit), (SetByTag m t v).2)
  | .setByTag2 t p => ((SetByTag2 m t p).1.map (fun _ => Ret.unit), (SetByTag2 m t p).2)
  | .getByTagOrSet t v =>
    ((GetByTagOrSet m t v).1.map (fun x => Ret.found x.1 x.2), (GetByTagOrSet m t v).2)
  | .getByTagOrSet2 t p =>
    ((GetByTagOrSet2 m t p).1.map (fun x => Ret.foundPtr x.1 x.2), (GetByTagOrSet2 m t p).2)
  | .getByTagAndDelete t => ((GetByTagAndDelete m t).1.map Ret.value, (GetByTagAndDelete m t).2)
  | .deleteByTag t => ((DeleteByTag m t).1.map (fun _ => Ret.unit), (DeleteByTag m t).2)

/-- A call of one of the by-name methods. -/
inductive NameOp (V : Type) where
  | getByName (name : TagName)
  | setByName (name : TagName) (val : V)
  | setByName2 (name : TagName) (val : Option V)
  | getByNameOrSet (name : TagName) (val : V)
  | getByNameOrSet2 (name : TagName) (val : Option V)
  | getByNameAndDelete (name : TagName)
  | deleteByName (name : TagName)

/-- The name a by-name call is made with. -/
def NameOp.name {V : Type} : NameOp V → TagName
  | .getByName n => n
  | .setByName n _ => n
  | .setByName2 n _ => n
  | .getByNameOrSet n _ => n
  | .getByNameOrSet2 n _ => n
  | .getByNameAndDelete n => n
  | .deleteByName n => n

/-- The by-tag call that corresponds to a by-name call, at a given tag. -/
def NameOp.byTag {V : Type} (tag : Tag) : NameOp V → Op V
  | .getByName _ => .getByTag tag
  | .setByName _ v => .setByTag tag v
  | .setByName2 _ p => .setByTag2 tag p
  | .getByNameOrSet _ v => .getByTagOrSet tag v
  | .getByNameOrSet2 _ p => .getByTagOrSet2 tag p
  | .getByNameAndDelete _ => .getByTagAndDelete tag
  | .deleteByName _ => .deleteByTag tag

/-- Outcome and store after one by-name call. -/
def NameOp.run {V : Type} [Inhabited V] (m : SafeTagMap V) :
    NameOp V → Except String (Ret V) × SafeTagMap V
  | .getByName n => ((GetByName m n).1.map Ret.value, (GetByName m n).2)
  | .setByName n v => ((SetByName m n v).1.map (fun _ => Ret.unit), (SetByName m n v).2)
  | .setByName2 n p => ((SetByName2 m n p).1.map (fun _ => Ret.unit), (SetByName2 m n p).2)
  | .getByNameOrSet n v =>
    ((GetByNameOrSet m n v).1.map (fun x => Ret.found x.1 x.2), (GetByNameOrSet m n v).2)
  | .getByNameOrSet2 n p =>
    ((GetByNameOrSet2 m n p).1.map (fun x => Ret.foundPtr x.1 x.2), (GetByNameOrSet2 m n p).2)
  | .getByNameAndDelete n =>
    ((GetByNameAndDelete m n).1.map Ret.value, (GetByNameAndDelete m n).2)
  | .deleteByName n => ((DeleteByName m n).1.map (fun _ => Ret.unit), (DeleteByName m n).2)

/-- Something that happens in the life of a store: a by-tag call, a by-name
call, or a registration in the registry the store points to. -/
inductive Event (V : Type) where
  | op (o : Op V)
  | nameOp (o : NameOp V)
  | register (c : Call)

/-- The store after one event; a panic leaves the store as it stands. -/
def runEvent {V : Type} [Inhabited V] (m : SafeTagMap V) : Event V → SafeTagMap V
  | .op o => (o.run m).2
  | .nameOp o => (o.run m).2
  | .register c => { m with registry := (call m.registry c).2 }

/-- The store after a sequence of events. -/
def runEvents {V : Type} [Inhabited V] (m : SafeTagMap V) : List (Event V) → SafeTagMap V
  | [] => m
  | e :: es => runEvents (runEvent m e) es

end stags

namespace tags

open tagmap registry

/-- The struct `TagMap[V]` of `pkg/tags/tags.go`: the slice of values, the
registry and the zero value. -/
structure TagMap (V : Type) where
  values : List V
  registry : TagRegistry
  zero : V

/-- The constructor `New`: `r.GetLen()` zero values. -/
def New {V : Type} [Inhabited V] (r : TagRegistry) : TagMap V :=
  { values := List.replicate (GetLen r).toNat default, registry := r, zero := default }

/-- The method `IsTagName`. -/
def IsTagName {V : Type} (m : TagMap V) (name : TagName) : Bool :=
  GetTag m.registry name != UnknownTag

/-- The method `TagByName`. -/
def TagByName {V : Type} (m : TagMap V) (name : TagName) : Tag :=
  GetTag m.registry name

/-- The method `GetByTag`: the slice index `m.values[tag]`. -/
def GetByTag {V : Type} (m : TagMap V) (tag : Tag) : Except String V × TagMap V :=
  if 0 ≤ tag ∧ tag < m.values.length then
    match m.values[tag.toNat]? with
    | some v => (.ok v, m)
    | none => (.error "index out of range", m)
  else (.error "index out of range", m)

/-- The method `GetByName`: no check of the tag, the slice index faults. -/
def GetByName {V : Type} (m : TagMap V) (name : TagName) : Except String V × TagMap V :=
  GetByTag m (TagByName m name)

/-- The method `SetByTag`: the assignment `m.values[tag] = val`. -/
def SetByTag {V : Type} (m : TagMap V) (tag : Tag) (val : V) : Except String Unit × TagMap V :=
  if 0 ≤ tag ∧ tag < m.values.length then
    (.ok (), { m with values := m.values.set tag.toNat val })
  else (.error "index out of range", m)

/-- The method `SetByName`. -/
def SetByName {V : Type} (m : TagMap V) (name : TagName) (val : V) :
    Except String Unit × TagMap V :=
  SetByTag m (TagByName m name) val

/-- The method `GetByTagOrSet`: reads the slot, then tests the argument `val`
with `reflect.ValueOf(val).IsZero()`. -/
def GetByTagOrSet {V : Type} [Inhabited V] [DecidableEq V] (m : TagMap V) (tag : Tag) (val : V) :
    Except String (V × Bool) × TagMap V :=
  match GetByTag m tag with
  | (.error e, m1) => (.error e, m1)
  | (.ok e, m1) =>
    if val = default then
      match SetByTag m1 tag val with
      | (.error err, m2) => (.error err, m2)
      | (.ok _, m2) => (.ok (val, false), m2)
    else (.ok (e, true), m1)

/-- The method `GetByNameOrSet`. -/
def GetByNameOrSet {V : Type} [Inhabited V] [DecidableEq V] (m : TagMap V) (name : TagName)
    (val : V) : Except String (V × Bool) × TagMap V :=
  GetByTagOrSet m (TagByName m name) val

/-- The method `GetByTagAndDelete`: reads the slot, then writes `*new(V)`. -/
def GetByTagAndDelete {V : Type} [Inhabited V] (m : TagMap V) (tag : Tag) :
    Except String V × TagMap V :=
  match GetByTag m tag with
  | (.error e, m1) => (.error e, m1)
  | (.ok out, m1) =>
    match SetByTag m1 tag default with
    | (.error err, m2) => (.error err, m2)
    | (.ok _, m2) => (.ok out, m2)

/-- The method `GetByNameAndDelete`. -/
def GetByNameAndDelete {V : Type} [Inhabited V] (m : TagMap V) (name : TagName) :
    Except String V × TagMap V :=
  GetByTagAndDelete m (TagByName m name)

/-- The method `DeleteByTag`: the assignment `m.values[tag] = *new(V)`. -/
def DeleteByTag {V : Type} [Inhabited V] (m : TagMap V) (tag : Tag) :
    Except String Unit × TagMap V :=
  SetByTag m tag default

/-- The method `DeleteByName`. -/
def DeleteByName {V : Type} [Inhabited V] (m : TagMap V) (name : TagName) :
    Except String Unit × TagMap V :=
  DeleteByTag m (TagByName m name)

/-- The loop of `GetValuesByName`: `out[idx] = m.GetByName(name)` for the
names still to visit. -/
def getValuesByNameLoop {V : Type} (m : TagMap V) :
    List TagName → Nat → List V → Except String (List V) × TagMap V
  | [], _, out => (.ok out, m)
  | name :: rest, idx, out =>
    match GetByName m name with
    | (.error e, m1) => (.error e, m1)
    | (.ok v, m1) => getValuesByNameLoop m1 rest (idx + 1) (out.set idx v)

/-- The method `GetValuesByName`. -/
def GetValuesByName {V : Type} [Inhabited V] (m : TagMap V) (names : List TagName) :
    Except String (List V) × TagMap V :=
  getValuesByNameLoop m names 0 (List.replicate names.length default)

/-- The loop of `GetValuesByTag`: `out[idx] = m.GetByTag(tag)` for the tags
still to visit. -/
def getValuesByTagLoop {V : Type} (m : TagMap V) :
    List Tag → Nat → List V → Except String (List V) × TagMap V
  | [], _, out => (.ok out, m)
  | tag :: rest, idx, out =>
    match GetByTag m tag with
    | (.error e, m1) => (.error e, m1)
    | (.ok v, m1) => getValuesByTagLoop m1 rest (idx + 1) (out.set idx v)

/-- The method `GetValuesByTag`. -/
def GetValuesByTag {V : Type} [Inhabited V] (m : TagMap V) (tags : List Tag) :
    Except String (List V) × TagMap V :=
  getValuesByTagLoop m tags 0 (List.replicate tags.length default)

end tags

namespace tags

/-- The store of the plain store test: `tags.New[string](r)` on the registry
with `tag1`, `tag2`, `tag3`. -/
def testTagMap : TagMap String :=
  New stags.testRegistry

end tags

namespace tags

/-- The plain test store after `tag4` is registered in the registry it points
to. -/
def grownTagMap : TagMap String :=
  { testTagMap with registry := (registry.RegisterTag testTagMap.registry "tag4").2 }

end tags

namespace stags

/-- The atomic test store after `tag4` is registered in the registry it
points to. -/
def grownTagMap : SafeTagMap String :=
  runEvents testTagMap [.register (.registerTag "tag4")]

end stags

namespace stags

open tagmap registry

/-- A by-tag method as the sequence of its atomic operations on the slots:
each constructor is one `sync/atomic` call together with the bounds check of
`&m.values[tag]`, and `ret` is the return or the panic of the method. -/
inductive Prog (V : Type) where
  | ret (r : Except String (Ret V))
  | load (tag : Tag) (k : Option V → Prog V)
  | store (tag : Tag) (p : Option V) (k : Prog V)
  | cas (tag : Tag) (p : Option V) (k : Bool → Prog V)

/-- The atomic operations of each by-tag method, in the order of its body. -/
def Op.prog {V : Type} [Inhabited V] : Op V → Prog V
  | .getByTag t =>
    .load t fun val =>
      match val with
      | none => .ret (.ok (.value default))
      | some v => .ret (.ok (.value v))
  | .setByTag t v => .store t (some v) (.ret (.ok .unit))
  | .setByTag2 t p => .store t p (.ret (.ok .unit))
  | .getByTagOrSet t v =>
    .cas t (some v) fun ok =>
      if ok then .ret (.ok (.found v false))
      else
        .load t fun val =>
          match val with
          | none => .ret (.error "nil pointer dereference")
          | some w => .ret (.ok (.found w true))
  | .getByTagOrSet2 t p =>
    .cas t p fun ok =>
      if ok then .ret (.ok (.foundPtr p false))
      else .load t fun val => .ret (.ok (.foundPtr val true))
  | .getByTagAndDelete t =>
    .load t fun val =>
      .store t none
        (match val with
        | none => .ret (.ok (.value default))
        | some v => .ret (.ok (.value v)))
  | .deleteByTag t => .store t none (.ret (.ok .unit))

/-- One atomic operation of a thread on the shared slots. -/
def Prog.step {V : Type} (values : List (Option V)) : Prog V → Prog V × List (Option V)
  | .ret r => (.ret r, values)
  | .load t k =>
    match slotIndex values t with
    | .error e => (.ret (.error e), values)
    | .ok i => (k (LoadPointer values i), values)
  | .store t p k =>
    match slotIndex values t with
    | .error e => (.ret (.error e), values)
    | .ok i => (k, StorePointer values i p)
  | .cas t p k =>
    match slotIndex values t with
    | .error e => (.ret (.error e), values)
    | .ok i => (k (CompareAndSwapPointer values i p).1, (CompareAndSwapPointer values i p).2)

/-- A thread run alone to its end: outcome and slots. -/
def Prog.run {V : Type} : Prog V → List (Option V) → Except String (Ret V) × List (Option V)
  | .ret r, values => (r, values)
  | .load t k, values =>
    match slotIndex values t with
    | .error e => (.error e, values)
    | .ok i => (k (LoadPointer values i)).run values
  | .store t p k, values =>
    match slotIndex values t with
    | .error e => (.error e, values)
    | .ok i => k.run (StorePointer values i p)
  | .cas t p k, values =>
    match slotIndex values t with
    | .error e => (.error e, values)
    | .ok i => (k (CompareAndSwapPointer values i p).1).run (CompareAndSwapPointer values i p).2

/-- The outcome of a thread that has ended. -/
def Prog.result {V : Type} : Prog V → Option (Except String (Ret V))
  | .ret r => some r
  | _ => none

/-- The scheduler lets thread `tid` do one atomic operation. -/
def stepThread {V : Type} (threads : List (Prog V)) (values : List (Option V)) (tid : Nat) :
    List (Prog V) × List (Option V) :=
  match threads[tid]? with
  | none => (threads, values)
  | some p => (threads.set tid (p.step values).1, (p.step values).2)

/-- The threads and the slots after a schedule, a list of thread numbers. -/
def runSchedule {V : Type} (threads : List (Prog V)) (values : List (Option V)) :
    List Nat → List (Prog V) × List (Option V)
  | [] => (threads, values)
  | tid :: rest =>
    runSchedule (stepThread threads values tid).1 (stepThread threads values tid).2 rest

end stags

namespace tagmap

/-- A call of one of the by-tag methods that the two stores share and that do
not look at whether a slot was ever set. -/
inductive ByTagCall (V : Type) where
  | setByTag (tag : Tag) (val : V)
  | deleteByTag (tag : Tag)
  | getByTag (tag : Tag)
  | getByTagAndDelete (tag : Tag)
  | getValuesByTag (tags : List Tag)

/-- What such a call hands back. -/
inductive Result (V : Type) where
  | unit
  | value (v : V)
  | values (vs : List V)
  deriving DecidableEq, Repr

end tagmap

namespace stags

open tagmap registry

/-- Outcome and store after one shared by-tag call on the atomic store. -/
def runByTag {V : Type} [Inhabited V] (m : SafeTagMap V) :
    ByTagCall V → Except String (Result V) × SafeTagMap V
  | .setByTag t v => ((SetByTag m t v).1.map (fun _ => Result.unit), (SetByTag m t v).2)
  | .deleteByTag t => ((DeleteByTag m t).1.map (fun _ => Result.unit), (DeleteByTag m t).2)
  | .getByTag t => ((GetByTag m t).1.map Result.value, (GetByTag m t).2)
  | .getByTagAndDelete t =>
    ((GetByTagAndDelete m t).1.map Result.value, (GetByTagAndDelete m t).2)
  | .getValuesByTag ts => ((GetValuesByTag m ts).1.map Result.values, (GetValuesByTag m ts).2)

/-- The outcomes of a sequence of shared by-tag calls on the atomic store; a
caller that recovers from a panic carries on with the store as it stands. -/
def trace {V : Type} [Inhabited V] (m : SafeTagMap V) :
    List (ByTagCall V) → List (Except String (Result V))
  | [] => []
  | c :: cs => (runByTag m c).1 :: trace (runByTag m c).2 cs

end stags

namespace tags

open tagmap registry

/-- The loop of `ValuesByTag`, `for tag, value := range m.values`, from index
`tag` on: every value is written into the map under its index. -/
def valuesByTagLoop {V : Type} : Nat → List V → List (Tag × V) → List (Tag × V)
  | _, [], out => out
  | tag, value :: rest, out => valuesByTagLoop (tag + 1) rest (mapSet out (tag : Int) value)

/-- The method `ValuesByTag`. -/
def ValuesByTag {V : Type} (m : TagMap V) : List (Tag × V) :=
  valuesByTagLoop 0 m.values []

/-- The loop of `ValuesByName` from index `tag` on: every value is written
into the map under `m.registry.GetName` of its index. -/
def valuesByNameLoop {V : Type} (r : TagRegistry) :
    Nat → List V → List (TagName × V) → Except String (List (TagName × V))
  | _, [], out => .ok out
  | tag, value :: rest, out =>
    match GetName r (tag : Int) with
    | .error e => .error e
    | .ok name => valuesByNameLoop r (tag + 1) rest (mapSet out name value)

/-- The method `ValuesByName`. -/
def ValuesByName {V : Type} (m : TagMap V) : Except String (List (TagName × V)) :=
  valuesByNameLoop m.registry 0 m.values []

/-- Outcome and store after one shared by-tag call on the plain store. -/
def runByTag {V : Type} [Inhabited V] (m : TagMap V) :
    ByTagCall V → Except String (Result V) × TagMap V
  | .setByTag t v => ((SetByTag m t v).1.map (fun _ => Result.unit), (SetByTag m t v).2)
  | .deleteByTag t => ((DeleteByTag m t).1.map (fun _ => Result.unit), (DeleteByTag m t).2)
  | .getByTag t => ((GetByTag m t).1.map Result.value, (GetByTag m t).2)
  | .getByTagAndDelete t =>
    ((GetByTagAndDelete m t).1.map Result.value, (GetByTagAndDelete m t).2)
  | .getValuesByTag ts => ((GetValuesByTag m ts).1.map Result.values, (GetValuesByTag m ts).2)

/-- The outcomes of a sequence of shared by-tag calls on the plain store. -/
def trace {V : Type} [Inhabited V] (m : TagMap V) :
    List (ByTagCall V) → List (Except String (Result V))
  | [] => []
  | c :: cs => (runByTag m c).1 :: trace (runByTag m c).2 cs

/-- The plain store holds, slot by slot, what the atomic store reads: the
stored value, or the zero value for a nil slot. -/
def Agree {V : Type} [Inhabited V] (m : stags.SafeTagMap V) (pm : TagMap V) : Prop :=
  pm.values = m.values.map (fun p => p.getD default)

end tags

/-! ## Maps -/

section MapLemmas

open tagmap

theorem mapGet_mapSet {K V : Type} [DecidableEq K] (m : List (K × V)) (k k' : K) (v : V) :
    mapGet (mapSet m k v) k' = if k = k' then some v else mapGet m k' := by
  induction m with
  | nil => simp [mapSet, mapGet]
  | cons p m ih =>
    obtain ⟨a, b⟩ := p
    by_cases hak : a = k
    · subst hak
      by_cases hk : a = k' <;> simp [mapSet, mapGet, hk]
    · by_cases hk : k = k'
      · subst hk
        simp [mapSet, mapGet, hak, ih]
      · by_cases hak' : a = k'
        · subst hak'
          simp [mapSet, mapGet, hak, hk]
        · simp [mapSet, mapGet, hak, hak', hk, ih]

/-- Writing a key that is absent adds the pair at the end. -/
theorem mapSet_fresh {K V : Type} [DecidableEq K] (m : List (K × V)) (k : K) (v : V)
    (h : mapGet m k = none) : mapSet m k v = m ++ [(k, v)] := by
  induction m with
  | nil => rfl
  | cons p m ih =>
    obtain ⟨a, b⟩ := p
    by_cases hak : a = k
    · simp [mapGet, hak] at h
    · simp only [mapGet, hak, if_false] at h
      simp [mapSet, hak, ih h]

/-- The map read off a list of slots: the pairs `(key i, v)` of the occupied
indices, for keys that differ on the indices visited. -/
theorem mapGet_entries {K V : Type} [DecidableEq K] (key : Nat → K) (values : List (Option V))
    (idxs : List Nat) (hnd : idxs.Nodup)
    (hinj : ∀ i ∈ idxs, ∀ j ∈ idxs, key i = key j → i = j) (k : K) (v : V) :
    mapGet (idxs.filterMap (fun i => (stags.LoadPointer values i).map (fun x => (key i, x)))) k =
        some v ↔
      ∃ i ∈ idxs, key i = k ∧ stags.LoadPointer values i = some v := by
  induction idxs with
  | nil => simp [mapGet]
  | cons i rest ih =>
    have hnd' := List.nodup_cons.1 hnd
    have hinj' : ∀ a ∈ rest, ∀ b ∈ rest, key a = key b → a = b :=
      fun a ha b hb => hinj a (List.mem_cons_of_mem i ha) b (List.mem_cons_of_mem i hb)
    have ih' := ih hnd'.2 hinj'
    cases hl : stags.LoadPointer values i with
    | none =>
      simp only [List.filterMap_cons, hl, Option.map_none']
      rw [ih']
      constructor
      · rintro ⟨j, hj, hk, hv⟩
        exact ⟨j, List.mem_cons_of_mem i hj, hk, hv⟩
      · rintro ⟨j, hj, hk, hv⟩
        rcases List.mem_cons.1 hj with heq | hmem
        · subst heq
          rw [hl] at hv
          exact Option.noConfusion hv
        · exact ⟨j, hmem, hk, hv⟩
    | some w =>
      simp only [List.filterMap_cons, hl, Option.map_some', mapGet]
      by_cases hk : key i = k
      · simp only [hk, if_true]
        constructor
        · intro hv
          refine ⟨i, List.mem_cons_self i rest, hk, ?_⟩
          rw [hl, ← Option.some.inj hv]
        · rintro ⟨j, hj, hkj, hv⟩
          have hji : j = i :=
            hinj j hj i (List.mem_cons_self i rest) (hkj.trans hk.symm)
          subst hji
          rw [hl] at hv
          exact hv
      · simp only [hk, if_false]
        rw [ih']
        constructor
        · rintro ⟨j, hj, hkj, hv⟩
          exact ⟨j, List.mem_cons_of_mem i hj, hkj, hv⟩
        · rintro ⟨j, hj, hkj, hv⟩
          rcases List.mem_cons.1 hj with heq | hmem
          · subst heq
            exact absurd hkj hk
          · exact ⟨j, hmem, hkj, hv⟩

end MapLemmas

/-! ## The registry invariant -/

section RegistryLemmas

open tagmap registry

theorem inv_New : Inv New := by
  intro name idx
  simp [New, mapGet]

theorem RegisterTag_absent (r : TagRegistry) (name : TagName)
    (h : mapGet r.backMap name = none) :
    RegisterTag r name =
      (.ok (r.tags.length : Int),
        { tags := r.tags ++ [name], backMap := mapSet r.backMap name (r.tags.length : Int) }) := by
  simp [RegisterTag, h]

theorem RegisterTag_present (r : TagRegistry) (name : TagName) (idx : Int)
    (h : mapGet r.backMap name = some idx) :
    RegisterTag r name =
      (.error ("tag with name " ++ name ++ " is already registered"), r) := by
  simp [RegisterTag, h]

theorem RegisterOrReuseTag_absent (r : TagRegistry) (name : TagName)
    (h : mapGet r.backMap name = none) :
    RegisterOrReuseTag r name =
      ((r.tags.length : Int),
        { tags := r.tags ++ [name], backMap := mapSet r.backMap name (r.tags.length : Int) }) := by
  simp [RegisterOrReuseTag, h]

theorem RegisterOrReuseTag_present (r : TagRegistry) (name : TagName) (idx : Int)
    (h : mapGet r.backMap name = some idx) :
    RegisterOrReuseTag r name = (idx, r) := by
  simp [RegisterOrReuseTag, h]

/-- Appending an unrecorded name and recording its index keeps the invariant. -/
theorem inv_append (r : TagRegistry) (name : TagName) (hinv : Inv r)
    (h : mapGet r.backMap name = none) :
    Inv { tags := r.tags ++ [name], backMap := mapSet r.backMap name (r.tags.length : Int) } := by
  intro n idx
  simp only [mapGet_mapSet]
  have hnot : ∀ i : Nat, r.tags[i]? ≠ some name := by
    intro i hi
    have := (hinv name i).2 ⟨i, rfl, hi⟩
    rw [h] at this
    exact Option.noConfusion this
  by_cases hn : name = n
  · subst hn
    simp only [if_true]
    constructor
    · intro hidx
      refine ⟨r.tags.length, ?_, ?_⟩
      · exact (Option.some.inj hidx).symm
      · simp
    · rintro ⟨i, hi, hget⟩
      rcases Nat.lt_trichotomy i r.tags.length with hlt | heq | hgt
      · rw [List.getElem?_append_left hlt] at hget
        exact absurd hget (hnot i)
      · subst heq
        rw [hi]
      · have : (r.tags ++ [name])[i]? = none := by
          apply List.getElem?_eq_none
          simp
          omega
        rw [this] at hget
        exact Option.noConfusion hget
  · simp only [hn, if_false]
    rw [hinv n idx]
    constructor
    · rintro ⟨i, hi, hget⟩
      refine ⟨i, hi, ?_⟩
      have hlt : i < r.tags.length := by
        rcases List.getElem?_eq_some.1 hget with ⟨hlt, _⟩
        exact hlt
      rw [List.getElem?_append_left hlt]
      exact hget
    · rintro ⟨i, hi, hget⟩
      refine ⟨i, hi, ?_⟩
      rcases Nat.lt_trichotomy i r.tags.length with hlt | heq | hgt
      · rw [List.getElem?_append_left hlt] at hget
        exact hget
      · subst heq
        simp at hget
        exact absurd hget hn
      · have : (r.tags ++ [name])[i]? = none := by
          apply List.getElem?_eq_none
          simp
          omega
        rw [this] at hget
        exact Option.noConfusion hget

/-- Under the invariant a name is absent from `backMap` exactly when it is
absent from `tags`. -/
theorem inv_absent_iff (r : TagRegistry) (hinv : Inv r) (name : TagName) :
    mapGet r.backMap name = none ↔ name ∉ r.tags := by
  constructor
  · intro h hmem
    obtain ⟨i, hi, hget⟩ := List.getElem_of_mem hmem
    have hsome : r.tags[i]? = some name := by
      rw [List.getElem?_eq_getElem hi, hget]
    have := (hinv name i).2 ⟨i, rfl, hsome⟩
    rw [h] at this
    exact Option.noConfusion this
  · intro h
    cases hm : mapGet r.backMap name with
    | none => rfl
    | some idx =>
      obtain ⟨i, _, hget⟩ := (hinv name idx).1 hm
      exact absurd (List.getElem?_mem hget) h

/-- The slice after one call: the name is appended when it was absent. -/
theorem call_tags (r : TagRegistry) (c : Call) :
    (call r c).2.tags =
      if mapGet r.backMap c.name = none then r.tags ++ [c.name] else r.tags := by
  cases c with
  | registerTag n =>
    cases h : mapGet r.backMap n with
    | none => simp [call, Call.name, RegisterTag_absent r n h, h]
    | some idx => simp [call, Call.name, RegisterTag_present r n idx h, h]
  | registerOrReuseTag n =>
    cases h : mapGet r.backMap n with
    | none => simp [call, Call.name, RegisterOrReuseTag_absent r n h, h]
    | some idx => simp [call, Call.name, RegisterOrReuseTag_present r n idx h, h]

theorem inv_call (r : TagRegistry) (c : Call) (hinv : Inv r) : Inv (call r c).2 := by
  cases c with
  | registerTag n =>
    cases h : mapGet r.backMap n with
    | none =>
      simp only [call, RegisterTag_absent r n h]
      exact inv_append r n hinv h
    | some idx =>
      simp only [call, RegisterTag_present r n idx h]
      exact hinv
  | registerOrReuseTag n =>
    cases h : mapGet r.backMap n with
    | none =>
      simp only [call, RegisterOrReuseTag_absent r n h]
      exact inv_append r n hinv h
    | some idx =>
      simp only [call, RegisterOrReuseTag_present r n idx h]
      exact hinv

theorem inv_runCalls (calls : List Call) : ∀ r : TagRegistry, Inv r → Inv (runCalls r calls) := by
  induction calls with
  | nil => intro r h; exact h
  | cons c cs ih =>
    intro r h
    simp only [runCalls]
    exact ih _ (inv_call r c h)

theorem inv_reachable (calls : List Call) : Inv (runCalls New calls) :=
  inv_runCalls calls New inv_New

/-- The names in the slice after a run are the earlier ones and the names of
the calls. -/
theorem mem_tags_runCalls (calls : List Call) :
    ∀ r : TagRegistry, Inv r → ∀ name : TagName,
      (name ∈ (runCalls r calls).tags ↔ name ∈ r.tags ∨ Registered calls name) := by
  induction calls with
  | nil =>
    intro r _ name
    simp [runCalls, Registered]
  | cons c cs ih =>
    intro r hinv name
    simp only [runCalls]
    rw [ih _ (inv_call r c hinv) name, call_tags]
    have habs := inv_absent_iff r hinv c.name
    simp only [Registered, List.mem_cons, exists_eq_or_imp]
    by_cases hc : mapGet r.backMap c.name = none
    · simp only [hc, if_true, List.mem_append, List.mem_singleton]
      constructor
      · rintro ((h | h) | h)
        · exact Or.inl h
        · exact Or.inr (Or.inl h.symm)
        · exact Or.inr (Or.inr h)
      · rintro (h | h | h)
        · exact Or.inl (Or.inl h)
        · exact Or.inl (Or.inr h.symm)
        · exact Or.inr h
    · simp only [hc, if_false]
      have hmem : c.name ∈ r.tags := by
        by_contra hnot
        exact hc (habs.2 hnot)
      constructor
      · rintro (h | h)
        · exact Or.inl h
        · exact Or.inr (Or.inr h)
      · rintro (h | h | h)
        · exact Or.inl h
        · exact Or.inl (h ▸ hmem)
        · exact Or.inr h

/-- In a registry built from `New`, the slice holds exactly the registered
names. -/
theorem mem_tags_reachable (calls : List Call) (name : TagName) :
    name ∈ (runCalls New calls).tags ↔ Registered calls name := by
  rw [mem_tags_runCalls calls New inv_New name]
  simp [New]

/-- In a registry built from `New`, `backMap` has an entry exactly for the
registered names. -/
theorem absent_reachable (calls : List Call) (name : TagName) :
    mapGet (runCalls New calls).backMap name = none ↔ ¬ Registered calls name := by
  rw [inv_absent_iff _ (inv_reachable calls), mem_tags_reachable]

/-- Under the invariant `GetTag` of a name in the slice is its index, and
`GetName` of that index is the name. -/
theorem inv_GetTag_of_getElem (r : TagRegistry) (hinv : Inv r) (i : Nat) (name : TagName)
    (h : r.tags[i]? = some name) : GetTag r name = (i : Int) := by
  have := (hinv name i).2 ⟨i, rfl, h⟩
  simp [GetTag, this]

theorem GetName_of_getElem (r : TagRegistry) (i : Nat) (name : TagName)
    (h : r.tags[i]? = some name) : GetName r (i : Int) = .ok name := by
  have hlt : i < r.tags.length := (List.getElem?_eq_some.1 h).1
  have h1 : (0 : Int) ≤ (i : Int) ∧ (i : Int) < (r.tags.length : Int) := by
    constructor <;> omega
  simp [GetName, h1, h]

/-- Registering fresh, pairwise distinct names in a registry that satisfies
the invariant hands out the next indices and appends the names. -/
theorem registerAll_fresh (names : List TagName) :
    ∀ r : TagRegistry, Inv r → names.Nodup → (∀ n ∈ names, n ∉ r.tags) →
      (registerAll r names).1 =
          (List.range names.length).map
            (fun i => (Except.ok ((r.tags.length + i : Nat) : Int) : Except String Tag)) ∧
        (registerAll r names).2.tags = r.tags ++ names ∧ Inv (registerAll r names).2 := by
  induction names with
  | nil =>
    intro r hinv _ _
    simp [registerAll, hinv]
  | cons n ns ih =>
    intro r hinv hnd hfresh
    have hn : mapGet r.backMap n = none :=
      (inv_absent_iff r hinv n).2 (hfresh n (List.mem_cons_self n ns))
    have hnd' := List.nodup_cons.1 hnd
    have hinv' := inv_append r n hinv hn
    have hfresh' : ∀ x ∈ ns, x ∉ (r.tags ++ [n]) := by
      intro x hx hmem
      rcases List.mem_append.1 hmem with h | h
      · exact hfresh x (List.mem_cons_of_mem n hx) h
      · have : x = n := List.mem_singleton.1 h
        exact hnd'.1 (this ▸ hx)
    obtain ⟨h1, h2, h3⟩ := ih _ hinv' hnd'.2 hfresh'
    simp only [registerAll, RegisterTag_absent r n hn]
    refine ⟨?_, ?_, h3⟩
    · rw [h1, List.length_cons, List.range_succ_eq_map]
      simp only [List.map_cons, List.map_map, List.length_append, List.length_singleton]
      congr 1
      apply List.map_congr_left
      intro i _
      simp only [Function.comp]
      congr 2
      omega
    · rw [h2]
      simp

/-- A call never shortens the slice: the old slice is a prefix of the new. -/
theorem call_tags_prefix (r : TagRegistry) (c : Call) :
    ∃ l : List TagName, (call r c).2.tags = r.tags ++ l := by
  rw [call_tags]
  by_cases h : mapGet r.backMap c.name = none
  · exact ⟨[c.name], by simp [h]⟩
  · exact ⟨[], by simp [h]⟩

theorem runCalls_tags_prefix (calls : List Call) :
    ∀ r : TagRegistry, ∃ l : List TagName, (runCalls r calls).tags = r.tags ++ l := by
  induction calls with
  | nil => intro r; exact ⟨[], by simp [runCalls]⟩
  | cons c cs ih =>
    intro r
    obtain ⟨l1, h1⟩ := call_tags_prefix r c
    obtain ⟨l2, h2⟩ := ih (call r c).2
    exact ⟨l1 ++ l2, by simp only [runCalls]; rw [h2, h1, List.append_assoc]⟩

/-- An index of the slice keeps its name over any further calls. -/
theorem runCalls_getElem (calls : List Call) (r : TagRegistry) (i : Nat) (name : TagName)
    (h : r.tags[i]? = some name) : (runCalls r calls).tags[i]? = some name := by
  obtain ⟨l, hl⟩ := runCalls_tags_prefix calls r
  have hlt : i < r.tags.length := (List.getElem?_eq_some.1 h).1
  rw [hl, List.getElem?_append_left hlt]
  exact h

/-- The map after one call: the name gets the old length when it was absent. -/
theorem call_backMap (r : TagRegistry) (c : Call) :
    (call r c).2.backMap =
      if mapGet r.backMap c.name = none then mapSet r.backMap c.name (r.tags.length : Int)
      else r.backMap := by
  cases c with
  | registerTag n =>
    cases h : mapGet r.backMap n with
    | none => simp [call, Call.name, RegisterTag_absent r n h, h]
    | some idx => simp [call, Call.name, RegisterTag_present r n idx h, h]
  | registerOrReuseTag n =>
    cases h : mapGet r.backMap n with
    | none => simp [call, Call.name, RegisterOrReuseTag_absent r n h, h]
    | some idx => simp [call, Call.name, RegisterOrReuseTag_present r n idx h, h]

/-- A call that returns a tag leaves that tag recorded for its name. -/
theorem call_ok_backMap (r : TagRegistry) (c : Call) (t : Tag)
    (h : (call r c).1 = .ok t) : mapGet (call r c).2.backMap c.name = some t := by
  cases c with
  | registerTag n =>
    cases hm : mapGet r.backMap n with
    | none =>
      simp only [call, RegisterTag_absent r n hm] at h ⊢
      have ht : (r.tags.length : Int) = t := Except.ok.inj h
      simp [Call.name, mapGet_mapSet, ht]
    | some idx =>
      simp [call, RegisterTag_present r n idx hm] at h
  | registerOrReuseTag n =>
    cases hm : mapGet r.backMap n with
    | none =>
      simp only [call, RegisterOrReuseTag_absent r n hm] at h ⊢
      have ht : (r.tags.length : Int) = t := Except.ok.inj h
      simp [Call.name, mapGet_mapSet, ht]
    | some idx =>
      simp only [call, RegisterOrReuseTag_present r n idx hm] at h ⊢
      have ht : idx = t := Except.ok.inj h
      simp [Call.name, hm, ht]

/-- A call leaves the tag of every name that already has one. -/
theorem call_GetTag_of_present (r : TagRegistry) (c : Call) (n : TagName)
    (h : mapGet r.backMap n ≠ none) : GetTag (call r c).2 n = GetTag r n := by
  rw [GetTag, GetTag, call_backMap]
  by_cases hc : mapGet r.backMap c.name = none
  · have hne : c.name ≠ n := by
      intro heq
      exact h (heq ▸ hc)
    simp [hc, mapGet_mapSet, hne]
  · simp [hc]

/-- A call leaves the name of every index below the old length. -/
theorem call_GetName_of_lt (r : TagRegistry) (c : Call) (t : Int)
    (h0 : 0 ≤ t) (hlt : t < GetLen r) : GetName (call r c).2 t = GetName r t := by
  obtain ⟨l, hl⟩ := call_tags_prefix r c
  simp only [GetLen] at hlt
  have hn : t.toNat < r.tags.length := by omega
  have hlt' : t < ((r.tags ++ l).length : Int) := by
    simp only [List.length_append]
    omega
  unfold GetName
  rw [hl, if_pos ⟨h0, hlt'⟩, if_pos ⟨h0, hlt⟩, List.getElem?_append_left hn]

/-- Under the invariant every recorded index is a natural number below the
length of the slice. -/
theorem inv_GetTag_range (r : TagRegistry) (hinv : Inv r) (name : TagName)
    (h : mapGet r.backMap name ≠ none) :
    ∃ i : Nat, GetTag r name = (i : Int) ∧ r.tags[i]? = some name := by
  cases hm : mapGet r.backMap name with
  | none => exact absurd hm h
  | some idx =>
    obtain ⟨i, hi, hget⟩ := (hinv name idx).1 hm
    exact ⟨i, by simp [GetTag, hm, hi], hget⟩

/-- The function `GetName` faults exactly outside `0 <= tag < GetLen`. -/
theorem GetName_error_iff (r : TagRegistry) (tag : Int) :
    (∃ msg, GetName r tag = .error msg) ↔ (tag < 0 ∨ GetLen r ≤ tag) := by
  unfold GetName GetLen
  by_cases h : 0 ≤ tag ∧ tag < (r.tags.length : Int)
  · have hn : tag.toNat < r.tags.length := by omega
    rw [if_pos h, List.getElem?_eq_getElem hn]
    constructor
    · rintro ⟨msg, hmsg⟩
      exact Except.noConfusion hmsg
    · intro h'
      omega
  · rw [if_neg h]
    constructor
    · intro _
      omega
    · intro _
      exact ⟨_, rfl⟩

end RegistryLemmas

/-! ## The registry: claims -/

section RegistryClaims

open tagmap registry

/-- C1: starting from `New`, registering pairwise distinct names in order with
`RegisterTag` returns the tags `0, 1, 2, ...` in that order; afterwards `GetLen`
is the number of names and `GetTag` of the i-th name is `i`. -/
theorem C1_register_assigns_sequential_tags (names : List TagName) (hnd : names.Nodup) :
    (registerAll New names).1 =
        (List.range names.length).map (fun (i : Nat) => (Except.ok (i : Int) : Except String Tag)) ∧
      GetLen (registerAll New names).2 = (names.length : Int) ∧
      ∀ (i : Nat) (h : i < names.length),
        GetTag (registerAll New names).2 (names.get ⟨i, h⟩) = (i : Int) := by
  obtain ⟨h1, h2, h3⟩ := registerAll_fresh names New inv_New hnd (by simp [New])
  refine ⟨?_, ?_, ?_⟩
  · rw [h1]
    simp [New]
  · simp only [GetLen, h2]
    simp [New]
  · intro i h
    apply inv_GetTag_of_getElem _ h3
    rw [h2]
    simp [New, List.getElem?_eq_getElem h]

/-- C1 at the three names of the registry test. -/
theorem C1_register_assigns_sequential_tags_witness :
    ["tag1", "tag2", "tag3"].Nodup ∧
      ((registerAll New ["tag1", "tag2", "tag3"]).1 =
          (List.range 3).map (fun (i : Nat) => (Except.ok (i : Int) : Except String Tag)) ∧
        GetLen (registerAll New ["tag1", "tag2", "tag3"]).2 = 3 ∧
        ∀ (i : Nat) (h : i < 3),
          GetTag (registerAll New ["tag1", "tag2", "tag3"]).2
            (["tag1", "tag2", "tag3"].get ⟨i, h⟩) = (i : Int)) :=
  ⟨by decide, C1_register_assigns_sequential_tags ["tag1", "tag2", "tag3"] (by decide)⟩

/-- C2: in a registry built from `New` by any sequence of `RegisterTag` and
`RegisterOrReuseTag` calls, `GetName (GetTag name)` is `name` for every
registered name, and every tag `t` with `0 <= t < GetLen` has a name whose
`GetTag` is `t`. -/
theorem C2_names_and_tags_in_bijection (calls : List Call) :
    (∀ name : TagName, Registered calls name →
        GetName (runCalls New calls) (GetTag (runCalls New calls) name) = .ok name) ∧
      (∀ t : Int, 0 ≤ t → t < GetLen (runCalls New calls) →
        ∃ name : TagName,
          GetName (runCalls New calls) t = .ok name ∧ GetTag (runCalls New calls) name = t) := by
  have hinv := inv_reachable calls
  constructor
  · intro name hreg
    have hpres : mapGet (runCalls New calls).backMap name ≠ none := by
      intro h
      exact (absent_reachable calls name).1 h hreg
    obtain ⟨i, hi, hget⟩ := inv_GetTag_range _ hinv name hpres
    rw [hi]
    exact GetName_of_getElem _ i name hget
  · intro t h0 hlt
    simp only [GetLen] at hlt
    have hn : t.toNat < (runCalls New calls).tags.length := by omega
    have hget : (runCalls New calls).tags[t.toNat]? = some ((runCalls New calls).tags[t.toNat]) :=
      List.getElem?_eq_getElem hn
    have ht : ((t.toNat : Nat) : Int) = t := Int.toNat_of_nonneg h0
    refine ⟨(runCalls New calls).tags[t.toNat], ?_, ?_⟩
    · have := GetName_of_getElem _ _ _ hget
      rw [ht] at this
      exact this
    · have := inv_GetTag_of_getElem _ hinv _ _ hget
      rw [ht] at this
      exact this

/-- C2 after the calls `RegisterTag a`, `RegisterOrReuseTag b`,
`RegisterOrReuseTag a`: the name `b` and the tag `1`. -/
theorem C2_names_and_tags_in_bijection_witness :
    GetName (runCalls New [.registerTag "a", .registerOrReuseTag "b", .registerOrReuseTag "a"])
        (GetTag (runCalls New [.registerTag "a", .registerOrReuseTag "b", .registerOrReuseTag "a"])
          "b") = .ok "b" ∧
      ∃ name : TagName,
        GetName (runCalls New [.registerTag "a", .registerOrReuseTag "b", .registerOrReuseTag "a"])
            1 = .ok name ∧
          GetTag (runCalls New [.registerTag "a", .registerOrReuseTag "b", .registerOrReuseTag "a"])
            name = 1 :=
  ⟨(C2_names_and_tags_in_bijection
      [.registerTag "a", .registerOrReuseTag "b", .registerOrReuseTag "a"]).1 "b"
      ⟨.registerOrReuseTag "b", by decide, rfl⟩,
    (C2_names_and_tags_in_bijection
      [.registerTag "a", .registerOrReuseTag "b", .registerOrReuseTag "a"]).2 1
      (by decide) (by decide)⟩

/-- C3: on a registry built from `New`, `RegisterTag name` panics exactly when
`name` is already registered, and a panicking call returns the registry it was
given, so `GetLen`, `GetTag` and `GetName` answer as before. -/
theorem C3_register_fails_iff_duplicate (calls : List Call) (name : TagName) :
    ((∃ msg, (RegisterTag (runCalls New calls) name).1 = .error msg) ↔ Registered calls name) ∧
      ((∃ msg, (RegisterTag (runCalls New calls) name).1 = .error msg) →
        (RegisterTag (runCalls New calls) name).2 = runCalls New calls) := by
  cases h : mapGet (runCalls New calls).backMap name with
  | none =>
    have hnot : ¬ Registered calls name := (absent_reachable calls name).1 h
    rw [RegisterTag_absent _ name h]
    constructor
    · constructor
      · rintro ⟨msg, hmsg⟩
        exact Except.noConfusion hmsg
      · intro hreg
        exact absurd hreg hnot
    · rintro ⟨msg, hmsg⟩
      exact Except.noConfusion hmsg
  | some idx =>
    have hreg : Registered calls name := by
      by_contra hnot
      have := (absent_reachable calls name).2 hnot
      rw [h] at this
      exact Option.noConfusion this
    rw [RegisterTag_present _ name idx h]
    exact ⟨⟨fun _ => hreg, fun _ => ⟨_, rfl⟩⟩, fun _ => rfl⟩

/-- C3 at a second `RegisterTag a`: it panics and the registry is the one
before the call. -/
theorem C3_register_fails_iff_duplicate_witness :
    (∃ msg, (RegisterTag (runCalls New [.registerTag "a"]) "a").1 = .error msg) ∧
      (RegisterTag (runCalls New [.registerTag "a"]) "a").2 = runCalls New [.registerTag "a"] :=
  ⟨(C3_register_fails_iff_duplicate [.registerTag "a"] "a").1.2 ⟨.registerTag "a", by decide, rfl⟩,
    (C3_register_fails_iff_duplicate [.registerTag "a"] "a").2
      ((C3_register_fails_iff_duplicate [.registerTag "a"] "a").1.2
        ⟨.registerTag "a", by decide, rfl⟩)⟩

/-- C4: `RegisterOrReuseTag` has no panicking path (it is a total function
returning a tag); on a registry built from `New`, for a registered name it
returns `GetTag name` and the registry it was given, and for an unregistered
name it returns the tag and the registry of `RegisterTag`. Calling it twice in a
row with one name returns the same tag twice and the same `GetLen` after both
calls. -/
theorem C4_register_or_reuse (calls : List Call) (name : TagName) :
    (Registered calls name →
        RegisterOrReuseTag (runCalls New calls) name =
          (GetTag (runCalls New calls) name, runCalls New calls)) ∧
      (¬ Registered calls name →
        RegisterTag (runCalls New calls) name =
          (.ok (RegisterOrReuseTag (runCalls New calls) name).1,
            (RegisterOrReuseTag (runCalls New calls) name).2)) ∧
      (RegisterOrReuseTag (RegisterOrReuseTag (runCalls New calls) name).2 name).1 =
        (RegisterOrReuseTag (runCalls New calls) name).1 ∧
      GetLen (RegisterOrReuseTag (RegisterOrReuseTag (runCalls New calls) name).2 name).2 =
        GetLen (RegisterOrReuseTag (runCalls New calls) name).2 := by
  cases h : mapGet (runCalls New calls).backMap name with
  | none =>
    have hnot : ¬ Registered calls name := (absent_reachable calls name).1 h
    rw [RegisterOrReuseTag_absent _ name h, RegisterTag_absent _ name h]
    have h2 : mapGet (mapSet (runCalls New calls).backMap name
        ((runCalls New calls).tags.length : Int)) name =
        some ((runCalls New calls).tags.length : Int) := by
      simp [mapGet_mapSet]
    refine ⟨fun hreg => absurd hreg hnot, fun _ => rfl, ?_, ?_⟩
    · rw [RegisterOrReuseTag_present _ name _ h2]
    · rw [RegisterOrReuseTag_present _ name _ h2]
  | some idx =>
    have hreg : Registered calls name := by
      by_contra hnot
      have := (absent_reachable calls name).2 hnot
      rw [h] at this
      exact Option.noConfusion this
    rw [RegisterOrReuseTag_present _ name idx h]
    refine ⟨fun _ => ?_, fun hnot => absurd hreg hnot, ?_, ?_⟩
    · simp [GetTag, h]
    · rw [RegisterOrReuseTag_present _ name idx h]
    · rw [RegisterOrReuseTag_present _ name idx h]

/-- C4 after `RegisterTag a`: reusing `a` returns its tag and the same
registry, and for the new name `b` both registration calls agree. -/
theorem C4_register_or_reuse_witness :
    RegisterOrReuseTag (runCalls New [.registerTag "a"]) "a" =
        (GetTag (runCalls New [.registerTag "a"]) "a", runCalls New [.registerTag "a"]) ∧
      RegisterTag (runCalls New [.registerTag "a"]) "b" =
        (.ok (RegisterOrReuseTag (runCalls New [.registerTag "a"]) "b").1,
          (RegisterOrReuseTag (runCalls New [.registerTag "a"]) "b").2) :=
  ⟨(C4_register_or_reuse [.registerTag "a"] "a").1 ⟨.registerTag "a", by decide, rfl⟩,
    (C4_register_or_reuse [.registerTag "a"] "b").2.1 (by
      rintro ⟨c, hc, hname⟩
      rw [List.mem_singleton] at hc
      subst hc
      exact absurd hname (by decide))⟩

/-- C5: on a registry built from `New`, `GetTag` (a total function, it has no
panicking path) returns `UnknownTag` exactly for the names that were never
registered; for a store on such a registry `IsTagName name` holds exactly when
`TagByName name` is not `UnknownTag`, that is exactly when `name` is
registered. -/
theorem C5_unknown_tag_iff_unregistered {V : Type} (calls : List Call) (name : TagName)
    (values : List (Option V)) :
    (GetTag (runCalls New calls) name = UnknownTag ↔ ¬ Registered calls name) ∧
      (stags.IsTagName ({ values := values, registry := runCalls New calls } : stags.SafeTagMap V)
            name = true ↔
          stags.TagByName ({ values := values, registry := runCalls New calls } : stags.SafeTagMap V)
            name ≠ UnknownTag) ∧
      (stags.IsTagName ({ values := values, registry := runCalls New calls } : stags.SafeTagMap V)
            name = true ↔
          Registered calls name) := by
  have hinv := inv_reachable calls
  have key : GetTag (runCalls New calls) name = UnknownTag ↔ ¬ Registered calls name := by
    rw [← absent_reachable calls name]
    constructor
    · intro hg
      cases hm : mapGet (runCalls New calls).backMap name with
      | none => rfl
      | some idx =>
        obtain ⟨i, hi, _⟩ := inv_GetTag_range _ hinv name (by rw [hm]; exact Option.noConfusion)
        rw [hg] at hi
        unfold UnknownTag Tag at hi
        omega
    · intro hm
      simp [GetTag, hm]
  refine ⟨key, ?_, ?_⟩
  · simp [stags.IsTagName, stags.TagByName]
  · simp only [stags.IsTagName, bne_iff_ne, ne_eq]
    rw [key]
    exact not_not

/-- C6: `GetName tag` faults exactly when `tag < 0` or `tag >= GetLen`, on
every registry; so `GetName UnknownTag` faults on every registry; and on a
registry built from `New` the tag returned by a `RegisterTag` or
`RegisterOrReuseTag` call has the name of that call, right after it and after
any further calls. -/
theorem C6_get_name_faults_iff_out_of_range (r : TagRegistry) (tag : Int)
    (calls : List Call) (c : Call) (more : List Call) (t : Int) :
    ((∃ msg, GetName r tag = .error msg) ↔ (tag < 0 ∨ GetLen r ≤ tag)) ∧
      (∃ msg, GetName r UnknownTag = .error msg) ∧
      ((call (runCalls New calls) c).1 = .ok t →
        GetName (runCalls (call (runCalls New calls) c).2 more) t = .ok c.name) := by
  refine ⟨GetName_error_iff r tag, ?_, ?_⟩
  · apply (GetName_error_iff r UnknownTag).2
    left
    unfold UnknownTag Tag
    omega
  · intro hok
    have hinv := inv_call _ c (inv_reachable calls)
    have hm := call_ok_backMap _ c t hok
    obtain ⟨i, hi, hget⟩ := (hinv c.name t).1 hm
    rw [hi]
    exact GetName_of_getElem _ i c.name (runCalls_getElem more _ i c.name hget)

/-- C6 at the tag returned by `RegisterOrReuseTag b` after `RegisterTag a`,
read back after a further `RegisterTag c`. -/
theorem C6_get_name_faults_iff_out_of_range_witness :
    (call (runCalls New [.registerTag "a"]) (.registerOrReuseTag "b")).1 = .ok 1 ∧
      GetName
          (runCalls (call (runCalls New [.registerTag "a"]) (.registerOrReuseTag "b")).2
            [.registerTag "c"]) 1 = .ok "b" :=
  ⟨rfl,
    (C6_get_name_faults_iff_out_of_range New 0 [.registerTag "a"] (.registerOrReuseTag "b")
      [.registerTag "c"] 1).2.2 rfl⟩

/-- C7: on a registry built from `New`, every `RegisterTag` or
`RegisterOrReuseTag` call, and so every one that returns, leaves `GetLen` as it
was or one larger, leaves `GetTag` of every registered name as it was, and
leaves `GetName` of every tag below the old `GetLen` as it was. -/
theorem C7_registry_append_only (calls : List Call) (c : Call) :
    (GetLen (call (runCalls New calls) c).2 = GetLen (runCalls New calls) ∨
        GetLen (call (runCalls New calls) c).2 = GetLen (runCalls New calls) + 1) ∧
      (∀ n : TagName, Registered calls n →
        GetTag (call (runCalls New calls) c).2 n = GetTag (runCalls New calls) n) ∧
      (∀ t : Int, 0 ≤ t → t < GetLen (runCalls New calls) →
        GetName (call (runCalls New calls) c).2 t = GetName (runCalls New calls) t) := by
  refine ⟨?_, ?_, ?_⟩
  · simp only [GetLen, call_tags]
    by_cases h : mapGet (runCalls New calls).backMap c.name = none
    · right
      simp [h]
    · left
      simp [h]
  · intro n hreg
    apply call_GetTag_of_present
    intro h
    exact (absent_reachable calls n).1 h hreg
  · intro t h0 hlt
    exact call_GetName_of_lt _ c t h0 hlt

/-- C7 at `RegisterOrReuseTag b` after `RegisterTag a`: the call returns tag
`1`, and the name `a` and the tag `0` are as before. -/
theorem C7_registry_append_only_witness :
    (call (runCalls New [.registerTag "a"]) (.registerOrReuseTag "b")).1 = .ok 1 ∧
      GetTag (call (runCalls New [.registerTag "a"]) (.registerOrReuseTag "b")).2 "a" =
        GetTag (runCalls New [.registerTag "a"]) "a" ∧
      GetName (call (runCalls New [.registerTag "a"]) (.registerOrReuseTag "b")).2 0 =
        GetName (runCalls New [.registerTag "a"]) 0 :=
  ⟨rfl,
    (C7_registry_append_only [.registerTag "a"] (.registerOrReuseTag "b")).2.1 "a"
      ⟨.registerTag "a", by decide, rfl⟩,
    (C7_registry_append_only [.registerTag "a"] (.registerOrReuseTag "b")).2.2 0
      (by decide) (by decide)⟩

end RegistryClaims

/-! ## The store: slots -/

section StoreLemmas

open tagmap registry stags

theorem slotIndex_inRange {V : Type} (values : List (Option V)) (t : Int)
    (h0 : 0 ≤ t) (hlt : t < values.length) : slotIndex values t = .ok t.toNat := by
  unfold slotIndex
  rw [if_pos ⟨h0, hlt⟩]

theorem toNat_lt_length {V : Type} (values : List (Option V)) (t : Int)
    (h0 : 0 ≤ t) (hlt : t < values.length) : t.toNat < values.length := by
  omega

theorem LoadPointer_StorePointer {V : Type} (values : List (Option V)) (i : Nat)
    (p : Option V) (h : i < values.length) :
    LoadPointer (StorePointer values i p) i = p := by
  simp [LoadPointer, StorePointer, List.getD_eq_getElem?_getD, h]

theorem length_StorePointer {V : Type} (values : List (Option V)) (i : Nat) (p : Option V) :
    (StorePointer values i p).length = values.length := by
  simp [StorePointer]

theorem GetByTag_inRange {V : Type} [Inhabited V] (m : SafeTagMap V) (t : Int)
    (h0 : 0 ≤ t) (hlt : t < m.values.length) :
    GetByTag m t = (.ok ((slot m t).getD default), m) := by
  unfold GetByTag slot
  rw [slotIndex_inRange m.values t h0 hlt]
  cases h : LoadPointer m.values t.toNat <;> simp [h]

theorem GetByTag_state {V : Type} [Inhabited V] (m : SafeTagMap V) (t : Int) :
    (GetByTag m t).2 = m := by
  unfold GetByTag
  cases slotIndex m.values t with
  | error e => rfl
  | ok i => cases h : LoadPointer m.values i <;> simp [h]

theorem SetByTag_inRange {V : Type} (m : SafeTagMap V) (t : Int) (v : V)
    (h0 : 0 ≤ t) (hlt : t < m.values.length) :
    SetByTag m t v =
      (.ok (), { values := m.values.set t.toNat (some v), registry := m.registry }) := by
  unfold SetByTag
  rw [slotIndex_inRange m.values t h0 hlt]
  rfl

theorem GetByTagOrSet_empty {V : Type} (m : SafeTagMap V) (t : Int) (v : V)
    (h0 : 0 ≤ t) (hlt : t < m.values.length) (hs : slot m t = none) :
    GetByTagOrSet m t v =
      (.ok (v, false), { values := m.values.set t.toNat (some v), registry := m.registry }) := by
  unfold slot at hs
  unfold GetByTagOrSet
  rw [slotIndex_inRange m.values t h0 hlt]
  simp [CompareAndSwapPointer, hs, StorePointer]

theorem GetByTagOrSet_occupied {V : Type} (m : SafeTagMap V) (t : Int) (v w : V)
    (h0 : 0 ≤ t) (hlt : t < m.values.length) (hs : slot m t = some w) :
    GetByTagOrSet m t v = (.ok (w, true), m) := by
  unfold slot at hs
  unfold GetByTagOrSet
  rw [slotIndex_inRange m.values t h0 hlt]
  simp [CompareAndSwapPointer, hs, slotIndex_inRange m.values t h0 hlt]

theorem GetByTagAndDelete_inRange {V : Type} [Inhabited V] (m : SafeTagMap V) (t : Int)
    (h0 : 0 ≤ t) (hlt : t < m.values.length) :
    GetByTagAndDelete m t =
      (.ok ((slot m t).getD default),
        { values := m.values.set t.toNat none, registry := m.registry }) := by
  unfold GetByTagAndDelete slot
  rw [slotIndex_inRange m.values t h0 hlt]
  cases h : LoadPointer m.values t.toNat <;> simp [h, StorePointer]

theorem slot_set_same {V : Type} (m : SafeTagMap V) (t : Int) (p : Option V)
    (h0 : 0 ≤ t) (hlt : t < m.values.length) :
    slot ({ values := m.values.set t.toNat p, registry := m.registry } : SafeTagMap V) t = p := by
  unfold slot
  exact LoadPointer_StorePointer m.values t.toNat p (toNat_lt_length m.values t h0 hlt)

theorem DeleteByTag_inRange {V : Type} (m : SafeTagMap V) (t : Int)
    (h0 : 0 ≤ t) (hlt : t < m.values.length) :
    DeleteByTag m t =
      (.ok (), { values := m.values.set t.toNat none, registry := m.registry }) := by
  unfold DeleteByTag
  rw [slotIndex_inRange m.values t h0 hlt]
  rfl

theorem SetByTag2_inRange {V : Type} (m : SafeTagMap V) (t : Int) (p : Option V)
    (h0 : 0 ≤ t) (hlt : t < m.values.length) :
    SetByTag2 m t p =
      (.ok (), { values := m.values.set t.toNat p, registry := m.registry }) := by
  unfold SetByTag2
  rw [slotIndex_inRange m.values t h0 hlt]
  rfl

theorem LoadPointer_replicate {V : Type} (n i : Nat) :
    LoadPointer (List.replicate n (none : Option V)) i = none := by
  unfold LoadPointer
  rw [List.getD_eq_getElem?_getD]
  by_cases h : i < n
  · simp [List.getElem?_replicate, h]
  · simp [List.getElem?_replicate, h]

theorem valuesByTagLoop_empty {V : Type} (n : Nat) (idxs : List Nat) (out : List (Tag × V)) :
    valuesByTagLoop (List.replicate n (none : Option V)) idxs out = out := by
  induction idxs with
  | nil => rfl
  | cons i rest ih =>
    unfold valuesByTagLoop
    rw [LoadPointer_replicate]
    exact ih

theorem valuesByNameLoop_empty {V : Type} (m : SafeTagMap V) (n : Nat)
    (hm : m.values = List.replicate n none) (idxs : List Nat) (out : List (TagName × V)) :
    valuesByNameLoop m idxs out = .ok out := by
  induction idxs with
  | nil => rfl
  | cons i rest ih =>
    unfold valuesByNameLoop
    rw [hm, LoadPointer_replicate]
    exact ih

/-- On a registry built from `New`, a name that was never registered has no
tag. -/
theorem GetTag_of_not_registered (calls : List Call) (name : TagName)
    (h : ¬ Registered calls name) : GetTag (runCalls registry.New calls) name = UnknownTag := by
  have hm := (absent_reachable calls name).2 h
  simp [GetTag, hm]

/-- On a registry built from `New`, a tag that is not `UnknownTag` is an index
of the slice of names. -/
theorem GetTag_nonneg_of_known (calls : List Call) (name : TagName)
    (h : GetTag (runCalls registry.New calls) name ≠ UnknownTag) :
    0 ≤ GetTag (runCalls registry.New calls) name ∧
      GetTag (runCalls registry.New calls) name < GetLen (runCalls registry.New calls) := by
  have hpres : mapGet (runCalls registry.New calls).backMap name ≠ none := by
    intro hm
    apply h
    simp [GetTag, hm]
  obtain ⟨i, hi, hget⟩ := inv_GetTag_range _ (inv_reachable calls) name hpres
  have hlt : i < (runCalls registry.New calls).tags.length := (List.getElem?_eq_some.1 hget).1
  rw [hi]
  unfold GetLen
  exact ⟨Int.ofNat_nonneg i, Int.ofNat_lt.2 hlt⟩

theorem getTag_known {V : Type} (m : SafeTagMap V) (name : TagName)
    (h : GetTag m.registry name ≠ UnknownTag) :
    getTag m name = .ok (GetTag m.registry name) := by
  simp [getTag, TagByName, h]

theorem getTag_unknown {V : Type} (m : SafeTagMap V) (name : TagName)
    (h : GetTag m.registry name = UnknownTag) :
    getTag m name = .error ("there is no such tag with name " ++ name) := by
  simp [getTag, TagByName, h]

theorem ne_unknown_of_nonneg (t : Int) (h0 : 0 ≤ t) : t ≠ UnknownTag := by
  unfold UnknownTag Tag
  omega

theorem GetByName_state {V : Type} [Inhabited V] (m : SafeTagMap V) (name : TagName) :
    (GetByName m name).2 = m := by
  unfold GetByName
  cases getTag m name with
  | error e => rfl
  | ok tag => exact GetByTag_state m tag

theorem getValuesByTagLoop_state {V : Type} [Inhabited V] (m : SafeTagMap V) (tags : List Tag) :
    ∀ (idx : Nat) (out : List V), (getValuesByTagLoop m tags idx out).2 = m := by
  induction tags with
  | nil => intro idx out; rfl
  | cons t rest ih =>
    intro idx out
    have hst := GetByTag_state m t
    rcases h : GetByTag m t with ⟨(e | v), m1⟩
    · rw [h] at hst
      simp only [getValuesByTagLoop, h]
      exact hst
    · rw [h] at hst
      simp only at hst
      subst hst
      simp only [getValuesByTagLoop, h]
      exact ih _ _

theorem getValuesByNameLoop_state {V : Type} [Inhabited V] (m : SafeTagMap V)
    (names : List TagName) :
    ∀ (idx : Nat) (out : List V), (getValuesByNameLoop m names idx out).2 = m := by
  induction names with
  | nil => intro idx out; rfl
  | cons n rest ih =>
    intro idx out
    have hst := GetByName_state m n
    rcases h : GetByName m n with ⟨(e | v), m1⟩
    · rw [h] at hst
      simp only [getValuesByNameLoop, h]
      exact hst
    · rw [h] at hst
      simp only at hst
      subst hst
      simp only [getValuesByNameLoop, h]
      exact ih _ _

/-- The loop of `GetValuesByName` faults when a name still to visit makes
`GetByName` fault. -/
theorem getValuesByNameLoop_error {V : Type} [Inhabited V] (m : SafeTagMap V)
    (names : List TagName) (name : TagName) (hmem : name ∈ names)
    (hbad : ∃ msg, (GetByName m name).1 = .error msg) :
    ∀ (idx : Nat) (out : List V), ∃ msg, (getValuesByNameLoop m names idx out).1 = .error msg := by
  induction names with
  | nil => exact absurd hmem (List.not_mem_nil name)
  | cons n rest ih =>
    intro idx out
    have hst := GetByName_state m n
    rcases h : GetByName m n with ⟨(e | v), m1⟩
    · simp only [getValuesByNameLoop, h]
      exact ⟨e, rfl⟩
    · rw [h] at hst
      simp only at hst
      subst hst
      simp only [getValuesByNameLoop, h]
      rcases List.mem_cons.1 hmem with heq | hrest
      · subst heq
        obtain ⟨msg, hmsg⟩ := hbad
        rw [h] at hmsg
        exact Except.noConfusion hmsg
      · exact ih hrest _ _

theorem slotIndex_outOfRange {V : Type} (values : List (Option V)) (t : Int)
    (h : ¬ (0 ≤ t ∧ t < values.length)) : slotIndex values t = .error "index out of range" := by
  unfold slotIndex
  rw [if_neg h]

theorem GetByTagOrSet2_empty {V : Type} (m : SafeTagMap V) (t : Int) (p : Option V)
    (h0 : 0 ≤ t) (hlt : t < m.values.length) (hs : slot m t = none) :
    GetByTagOrSet2 m t p =
      (.ok (p, false), { values := m.values.set t.toNat p, registry := m.registry }) := by
  unfold slot at hs
  unfold GetByTagOrSet2
  rw [slotIndex_inRange m.values t h0 hlt]
  simp [CompareAndSwapPointer, hs, StorePointer]

theorem GetByTagOrSet2_occupied {V : Type} (m : SafeTagMap V) (t : Int) (p : Option V) (w : V)
    (h0 : 0 ≤ t) (hlt : t < m.values.length) (hs : slot m t = some w) :
    GetByTagOrSet2 m t p = (.ok (some w, true), m) := by
  unfold slot at hs
  unfold GetByTagOrSet2
  rw [slotIndex_inRange m.values t h0 hlt]
  simp [CompareAndSwapPointer, hs, slotIndex_inRange m.values t h0 hlt]

/-- A by-tag call with a tag outside the slice faults and returns the store
it was given. -/
theorem Op_run_outOfRange {V : Type} [Inhabited V] (m : SafeTagMap V) (o : Op V)
    (h : ¬ (0 ≤ o.tag ∧ o.tag < m.values.length)) :
    o.run m = (.error "index out of range", m) := by
  cases o <;>
    simp only [Op.tag] at h <;>
    simp [Op.run, GetByTag, SetByTag, SetByTag2, GetByTagOrSet, GetByTagOrSet2,
      GetByTagAndDelete, DeleteByTag, slotIndex_outOfRange _ _ h, Except.map]

/-- A by-tag call with a tag inside the slice returns, and the store after it
is the store before it or differs from it in the slot of that tag only. -/
theorem Op_run_inRange {V : Type} [Inhabited V] (m : SafeTagMap V) (o : Op V)
    (h0 : 0 ≤ o.tag) (hlt : o.tag < m.values.length) :
    ∃ ret : Ret V, (o.run m).1 = .ok ret ∧
      ((o.run m).2 = m ∨
        ∃ p : Option V,
          (o.run m).2 = { values := m.values.set o.tag.toNat p, registry := m.registry }) := by
  cases o with
  | getByTag t =>
    simp only [Op.tag] at h0 hlt
    simp only [Op.run, GetByTag_inRange m t h0 hlt, Except.map]
    exact ⟨_, rfl, Or.inl trivial⟩
  | setByTag t v =>
    simp only [Op.tag] at h0 hlt
    simp only [Op.run, SetByTag_inRange m t v h0 hlt, Except.map, Op.tag]
    exact ⟨_, rfl, Or.inr ⟨_, rfl⟩⟩
  | setByTag2 t p =>
    simp only [Op.tag] at h0 hlt
    simp only [Op.run, SetByTag2_inRange m t p h0 hlt, Except.map, Op.tag]
    exact ⟨_, rfl, Or.inr ⟨_, rfl⟩⟩
  | getByTagOrSet t v =>
    simp only [Op.tag] at h0 hlt
    cases hs : slot m t with
    | none =>
      simp only [Op.run, GetByTagOrSet_empty m t v h0 hlt hs, Except.map, Op.tag]
      exact ⟨_, rfl, Or.inr ⟨_, rfl⟩⟩
    | some w =>
      simp only [Op.run, GetByTagOrSet_occupied m t v w h0 hlt hs, Except.map]
      exact ⟨_, rfl, Or.inl trivial⟩
  | getByTagOrSet2 t p =>
    simp only [Op.tag] at h0 hlt
    cases hs : slot m t with
    | none =>
      simp only [Op.run, GetByTagOrSet2_empty m t p h0 hlt hs, Except.map, Op.tag]
      exact ⟨_, rfl, Or.inr ⟨_, rfl⟩⟩
    | some w =>
      simp only [Op.run, GetByTagOrSet2_occupied m t p w h0 hlt hs, Except.map]
      exact ⟨_, rfl, Or.inl trivial⟩
  | getByTagAndDelete t =>
    simp only [Op.tag] at h0 hlt
    simp only [Op.run, GetByTagAndDelete_inRange m t h0 hlt, Except.map, Op.tag]
    exact ⟨_, rfl, Or.inr ⟨_, rfl⟩⟩
  | deleteByTag t =>
    simp only [Op.tag] at h0 hlt
    simp only [Op.run, DeleteByTag_inRange m t h0 hlt, Except.map, Op.tag]
    exact ⟨_, rfl, Or.inr ⟨_, rfl⟩⟩

/-- Every by-tag call leaves the store as it was or changes the slot of its
tag only. -/
theorem Op_run_state {V : Type} [Inhabited V] (m : SafeTagMap V) (o : Op V) :
    (o.run m).2 = m ∨
      ∃ p : Option V, 0 ≤ o.tag ∧
        (o.run m).2 = { values := m.values.set o.tag.toNat p, registry := m.registry } := by
  by_cases h : 0 ≤ o.tag ∧ o.tag < m.values.length
  · obtain ⟨_, _, hst⟩ := Op_run_inRange m o h.1 h.2
    rcases hst with hst | ⟨p, hp⟩
    · exact Or.inl hst
    · exact Or.inr ⟨p, h.1, hp⟩
  · rw [Op_run_outOfRange m o h]
    exact Or.inl rfl

/-- A by-name call is a fault of `getTag` or the by-tag call at `GetTag name`. -/
theorem NameOp_run_eq {V : Type} [Inhabited V] (m : SafeTagMap V) (o : NameOp V) :
    o.run m =
      if GetTag m.registry o.name = UnknownTag then
        (.error ("there is no such tag with name " ++ o.name), m)
      else (o.byTag (GetTag m.registry o.name)).run m := by
  by_cases h : GetTag m.registry o.name = UnknownTag
  · rw [if_pos h]
    cases o <;>
      simp only [NameOp.name] at h <;>
      simp [NameOp.run, NameOp.name, GetByName, SetByName, SetByName2, GetByNameOrSet,
        GetByNameOrSet2, GetByNameAndDelete, DeleteByName, getTag_unknown m _ h, Except.map]
  · rw [if_neg h]
    cases o <;>
      simp only [NameOp.name] at h <;>
      simp [NameOp.run, NameOp.name, NameOp.byTag, Op.run, GetByName, SetByName, SetByName2,
        GetByNameOrSet, GetByNameOrSet2, GetByNameAndDelete, DeleteByName, getTag_known m _ h]

theorem NameOp_byTag_tag {V : Type} (t : Int) (o : NameOp V) : (o.byTag t).tag = t := by
  cases o <;> rfl

/-- Every by-name call leaves the store as it was or changes the slot of the
tag of its name only. -/
theorem NameOp_run_state {V : Type} [Inhabited V] (m : SafeTagMap V) (o : NameOp V) :
    (o.run m).2 = m ∨
      ∃ p : Option V, 0 ≤ GetTag m.registry o.name ∧
        (o.run m).2 =
          { values := m.values.set (GetTag m.registry o.name).toNat p,
            registry := m.registry } := by
  rw [NameOp_run_eq]
  by_cases h : GetTag m.registry o.name = UnknownTag
  · rw [if_pos h]
    exact Or.inl rfl
  · rw [if_neg h]
    have := Op_run_state m (o.byTag (GetTag m.registry o.name))
    rw [NameOp_byTag_tag] at this
    exact this

/-- No event changes the number of slots of a store. -/
theorem runEvent_length {V : Type} [Inhabited V] (m : SafeTagMap V) (e : Event V) :
    (runEvent m e).values.length = m.values.length := by
  cases e with
  | op o =>
    simp only [runEvent]
    rcases Op_run_state m o with h | ⟨p, _, h⟩ <;> rw [h]
    simp
  | nameOp o =>
    simp only [runEvent]
    rcases NameOp_run_state m o with h | ⟨p, _, h⟩ <;> rw [h]
    simp
  | register c => rfl

theorem runEvents_length {V : Type} [Inhabited V] (events : List (Event V)) :
    ∀ m : SafeTagMap V, (runEvents m events).values.length = m.values.length := by
  induction events with
  | nil => intro m; rfl
  | cons e es ih =>
    intro m
    simp only [runEvents]
    rw [ih, runEvent_length]

/-- A by-tag call faults exactly when its tag is outside the slice. -/
theorem Op_run_error_iff {V : Type} [Inhabited V] (m : SafeTagMap V) (o : Op V) :
    (∃ msg, (o.run m).1 = .error msg) ↔ (o.tag < 0 ∨ (m.values.length : Int) ≤ o.tag) := by
  by_cases h : 0 ≤ o.tag ∧ o.tag < m.values.length
  · obtain ⟨ret, hret, _⟩ := Op_run_inRange m o h.1 h.2
    constructor
    · rintro ⟨msg, hmsg⟩
      rw [hret] at hmsg
      exact Except.noConfusion hmsg
    · rintro (hneg | hge)
      · exact absurd h.1 (not_le.2 hneg)
      · exact absurd h.2 (not_lt.2 hge)
  · constructor
    · intro _
      rcases not_and_or.1 h with h1 | h2
      · exact Or.inl (not_le.1 h1)
      · exact Or.inr (not_lt.1 h2)
    · intro _
      rw [Op_run_outOfRange m o h]
      exact ⟨_, rfl⟩

/-- A state that differs from `m` in slot `t` only has the slots of `m`
elsewhere. -/
theorem frame_of_state {V : Type} (m m' : SafeTagMap V) (t : Int)
    (h : m' = m ∨
      ∃ p : Option V, 0 ≤ t ∧
        m' = { values := m.values.set t.toNat p, registry := m.registry }) :
    m'.values.length = m.values.length ∧ m'.registry = m.registry ∧
      ∀ i : Nat, (i : Int) ≠ t → m'.values[i]? = m.values[i]? := by
  rcases h with h | ⟨p, h0, h⟩
  · subst h
    exact ⟨rfl, rfl, fun _ _ => rfl⟩
  · subst h
    refine ⟨by simp, rfl, ?_⟩
    intro i hi
    have hne : t.toNat ≠ i := by
      intro heq
      apply hi
      rw [← heq]
      exact Int.toNat_of_nonneg h0
    simp only [List.getElem?_set_ne hne]

/-- The loop of `ValuesByTag` appends the pairs of the occupied indices it
visits. -/
theorem valuesByTagLoop_eq {V : Type} (values : List (Option V)) (idxs : List Nat)
    (hnd : idxs.Nodup) :
    ∀ out : List (Tag × V), (∀ i ∈ idxs, mapGet out (i : Int) = none) →
      valuesByTagLoop values idxs out =
        out ++ idxs.filterMap (fun i => (LoadPointer values i).map (fun x => ((i : Int), x))) := by
  induction idxs with
  | nil => intro out _; simp [valuesByTagLoop]
  | cons i rest ih =>
    intro out hfresh
    have hnd' := List.nodup_cons.1 hnd
    cases hl : LoadPointer values i with
    | none =>
      simp only [valuesByTagLoop, hl, List.filterMap_cons, Option.map_none']
      exact ih hnd'.2 out (fun j hj => hfresh j (List.mem_cons_of_mem i hj))
    | some w =>
      simp only [valuesByTagLoop, hl, List.filterMap_cons, Option.map_some']
      have hfresh' : ∀ j ∈ rest, mapGet (mapSet out (i : Int) w) (j : Int) = none := by
        intro j hj
        have hne : ¬ ((i : Int) = (j : Int)) := by
          intro heq
          have : i = j := Int.ofNat_inj.1 heq
          exact hnd'.1 (this ▸ hj)
        rw [mapGet_mapSet, if_neg hne]
        exact hfresh j (List.mem_cons_of_mem i hj)
      rw [ih hnd'.2 _ hfresh', mapSet_fresh out _ w (hfresh i (List.mem_cons_self i rest))]
      simp

/-- The loop of `ValuesByName` returns and appends the pairs of the occupied
indices it visits, when these indices have names and the names differ. -/
theorem valuesByNameLoop_eq {V : Type} (m : SafeTagMap V) (idxs : List Nat)
    (hnd : idxs.Nodup) (hb : ∀ i ∈ idxs, i < m.registry.tags.length)
    (hinj : ∀ i ∈ idxs, ∀ j ∈ idxs,
      m.registry.tags.getD i "" = m.registry.tags.getD j "" → i = j) :
    ∀ out : List (TagName × V),
      (∀ i ∈ idxs, mapGet out (m.registry.tags.getD i "") = none) →
      valuesByNameLoop m idxs out =
        .ok (out ++ idxs.filterMap (fun i =>
          (LoadPointer m.values i).map (fun x => (m.registry.tags.getD i "", x)))) := by
  induction idxs with
  | nil => intro out _; simp [valuesByNameLoop]
  | cons i rest ih =>
    intro out hfresh
    have hnd' := List.nodup_cons.1 hnd
    have hb' : ∀ j ∈ rest, j < m.registry.tags.length :=
      fun j hj => hb j (List.mem_cons_of_mem i hj)
    have hinj' : ∀ a ∈ rest, ∀ b ∈ rest,
        m.registry.tags.getD a "" = m.registry.tags.getD b "" → a = b :=
      fun a ha b hb => hinj a (List.mem_cons_of_mem i ha) b (List.mem_cons_of_mem i hb)
    cases hl : LoadPointer m.values i with
    | none =>
      simp only [valuesByNameLoop, hl, List.filterMap_cons, Option.map_none']
      exact ih hnd'.2 hb' hinj' out (fun j hj => hfresh j (List.mem_cons_of_mem i hj))
    | some w =>
      have hi := hb i (List.mem_cons_self i rest)
      have hname : GetName m.registry (i : Int) = .ok (m.registry.tags.getD i "") := by
        apply GetName_of_getElem
        rw [List.getD_eq_getElem?_getD, List.getElem?_eq_getElem hi]
        rfl
      simp only [valuesByNameLoop, hl, hname, List.filterMap_cons, Option.map_some']
      have hfresh' : ∀ j ∈ rest,
          mapGet (mapSet out (m.registry.tags.getD i "") w) (m.registry.tags.getD j "") = none := by
        intro j hj
        have hne : ¬ (m.registry.tags.getD i "" = m.registry.tags.getD j "") := by
          intro heq
          have : i = j := hinj i (List.mem_cons_self i rest) j (List.mem_cons_of_mem i hj) heq
          exact hnd'.1 (this ▸ hj)
        rw [mapGet_mapSet, if_neg hne]
        exact hfresh j (List.mem_cons_of_mem i hj)
      rw [ih hnd'.2 hb' hinj' _ hfresh',
        mapSet_fresh out _ w (hfresh i (List.mem_cons_self i rest))]
      simp

/-- Under the registry invariant the names of the slice differ. -/
theorem inv_names_injective (r : TagRegistry) (hinv : Inv r) (i j : Nat)
    (hi : i < r.tags.length) (hj : j < r.tags.length)
    (h : r.tags.getD i "" = r.tags.getD j "") : i = j := by
  have hgi : r.tags[i]? = some (r.tags.getD i "") := by
    rw [List.getD_eq_getElem?_getD, List.getElem?_eq_getElem hi]
    rfl
  have hgj : r.tags[j]? = some (r.tags.getD i "") := by
    rw [h, List.getD_eq_getElem?_getD, List.getElem?_eq_getElem hj]
    rfl
  have h1 := (hinv (r.tags.getD i "") i).2 ⟨i, rfl, hgi⟩
  have h2 := (hinv (r.tags.getD i "") j).2 ⟨j, rfl, hgj⟩
  rw [h1] at h2
  exact Int.ofNat_inj.1 (Option.some.inj h2)

/-- The number of pairs read off a list of slots does not depend on the keys. -/
theorem length_entries {K L V : Type} (key : Nat → K) (key' : Nat → L)
    (values : List (Option V)) (idxs : List Nat) :
    (idxs.filterMap (fun i => (LoadPointer values i).map (fun x => (key i, x)))).length =
      (idxs.filterMap (fun i => (LoadPointer values i).map (fun x => (key' i, x)))).length := by
  induction idxs with
  | nil => rfl
  | cons i rest ih =>
    cases hl : LoadPointer values i with
    | none => simpa [List.filterMap_cons, hl] using ih
    | some w => simpa [List.filterMap_cons, hl] using ih

theorem ValuesByTag_eq {V : Type} (m : SafeTagMap V) :
    ValuesByTag m =
      (List.range m.values.length).filterMap
        (fun i => (LoadPointer m.values i).map (fun x => ((i : Int), x))) := by
  unfold ValuesByTag
  rw [valuesByTagLoop_eq m.values _ (List.nodup_range _) [] (fun _ _ => rfl)]
  rfl

theorem mapGet_ValuesByTag {V : Type} (m : SafeTagMap V) (t : Int) (v : V) :
    mapGet (ValuesByTag m) t = some v ↔
      (0 ≤ t ∧ t < m.values.length ∧ slot m t = some v) := by
  rw [ValuesByTag_eq, mapGet_entries (fun i : Nat => (i : Int)) m.values _ (List.nodup_range _)
    (fun i _ j _ h => Int.ofNat_inj.1 h)]
  unfold slot
  constructor
  · rintro ⟨i, hi, hk, hv⟩
    have hlt : i < m.values.length := List.mem_range.1 hi
    subst hk
    refine ⟨Int.ofNat_nonneg i, Int.ofNat_lt.2 hlt, ?_⟩
    simpa using hv
  · rintro ⟨h0, hlt, hv⟩
    refine ⟨t.toNat, List.mem_range.2 (by omega), Int.toNat_of_nonneg h0, hv⟩

/-- The loop of `GetValuesByTag` fills the output in the order of its tags when
every `GetByTag` returns. -/
theorem getValuesByTagLoop_eq {V : Type} [Inhabited V] (m : SafeTagMap V) (f : Int → V) (xs : List Int) :
    ∀ pre : List V, (∀ x ∈ xs, GetByTag m x = (.ok (f x), m)) →
      getValuesByTagLoop m xs pre.length (pre ++ List.replicate xs.length default) =
        (.ok (pre ++ xs.map f), m) := by
  induction xs with
  | nil => intro pre _; simp [getValuesByTagLoop]
  | cons x rest ih =>
    intro pre h
    have hx := h x (List.mem_cons_self x rest)
    have hset : (pre ++ List.replicate (rest.length + 1) (default : V)).set pre.length (f x) =
        (pre ++ [f x]) ++ List.replicate rest.length default := by
      simp [List.set_append, List.replicate_succ]
    have := ih (pre ++ [f x]) (fun y hy => h y (List.mem_cons_of_mem x hy))
    simp only [List.length_append, List.length_singleton] at this
    simp only [getValuesByTagLoop, hx, List.length_cons, hset, this]
    simp

/-- The loop of `GetValuesByName` fills the output in the order of its names
when every `GetByName` returns. -/
theorem getValuesByNameLoop_eq {V : Type} [Inhabited V] (m : SafeTagMap V) (f : TagName → V) (xs : List TagName) :
    ∀ pre : List V, (∀ x ∈ xs, GetByName m x = (.ok (f x), m)) →
      getValuesByNameLoop m xs pre.length (pre ++ List.replicate xs.length default) =
        (.ok (pre ++ xs.map f), m) := by
  induction xs with
  | nil => intro pre _; simp [getValuesByNameLoop]
  | cons x rest ih =>
    intro pre h
    have hx := h x (List.mem_cons_self x rest)
    have hset : (pre ++ List.replicate (rest.length + 1) (default : V)).set pre.length (f x) =
        (pre ++ [f x]) ++ List.replicate rest.length default := by
      simp [List.set_append, List.replicate_succ]
    have := ih (pre ++ [f x]) (fun y hy => h y (List.mem_cons_of_mem x hy))
    simp only [List.length_append, List.length_singleton] at this
    simp only [getValuesByNameLoop, hx, List.length_cons, hset, this]
    simp

/-- The elements of a mapped list, by position. -/
theorem map_elems {A B : Type} (f : A → B) (xs : List A) :
    (xs.map f).length = xs.length ∧
      ∀ (i : Nat) (x : A), xs[i]? = some x → (xs.map f)[i]? = some (f x) := by
  refine ⟨List.length_map xs f, ?_⟩
  intro i x h
  simp [List.getElem?_map, h]

theorem runCalls_append (a b : List Call) :
    ∀ r : TagRegistry, runCalls r (a ++ b) = runCalls (runCalls r a) b := by
  induction a with
  | nil => intro r; rfl
  | cons c cs ih =>
    intro r
    simp only [List.cons_append, runCalls]
    exact ih _

/-- One event keeps a store on a registry built from `New` with at least as
many names as the store has slots. -/
theorem runEvent_wf {V : Type} [Inhabited V] (m : SafeTagMap V) (e : Event V)
    (hreg : ∃ calls : List Call, m.registry = runCalls registry.New calls)
    (hlen : (m.values.length : Int) ≤ GetLen m.registry) :
    (∃ calls : List Call, (runEvent m e).registry = runCalls registry.New calls) ∧
      ((runEvent m e).values.length : Int) ≤ GetLen (runEvent m e).registry := by
  cases e with
  | op o =>
    obtain ⟨hl, hr, _⟩ := frame_of_state m (o.run m).2 o.tag (Op_run_state m o)
    simp only [runEvent]
    rw [hl, hr]
    exact ⟨hreg, hlen⟩
  | nameOp o =>
    obtain ⟨hl, hr, _⟩ :=
      frame_of_state m (o.run m).2 (GetTag m.registry o.name) (NameOp_run_state m o)
    simp only [runEvent]
    rw [hl, hr]
    exact ⟨hreg, hlen⟩
  | register c =>
    obtain ⟨calls, hc⟩ := hreg
    simp only [runEvent]
    constructor
    · refine ⟨calls ++ [c], ?_⟩
      rw [runCalls_append, ← hc]
      rfl
    · obtain ⟨l, hl⟩ := call_tags_prefix m.registry c
      unfold GetLen at hlen ⊢
      rw [hl, List.length_append]
      omega

/-- Every store in the life of a store built by `stags.New` on a registry
built from `New` is on such a registry, which has at least as many names as the
store has slots. -/
theorem store_life_wf {V : Type} [Inhabited V] (events : List (Event V)) :
    ∀ m : SafeTagMap V, (∃ calls : List Call, m.registry = runCalls registry.New calls) →
      (m.values.length : Int) ≤ GetLen m.registry →
      (∃ calls : List Call, (runEvents m events).registry = runCalls registry.New calls) ∧
        ((runEvents m events).values.length : Int) ≤ GetLen (runEvents m events).registry := by
  induction events with
  | nil => intro m hreg hlen; exact ⟨hreg, hlen⟩
  | cons e es ih =>
    intro m hreg hlen
    obtain ⟨h1, h2⟩ := runEvent_wf m e hreg hlen
    exact ih _ h1 h2

theorem new_store_wf {V : Type} (calls : List Call) :
    (∃ calls' : List Call,
        (stags.New (runCalls registry.New calls) : SafeTagMap V).registry =
          runCalls registry.New calls') ∧
      (((stags.New (runCalls registry.New calls) : SafeTagMap V).values.length : Int) ≤
        GetLen (stags.New (runCalls registry.New calls) : SafeTagMap V).registry) := by
  refine ⟨⟨calls, rfl⟩, ?_⟩
  simp [stags.New, GetLen]

/-- Storing nil in an empty slot leaves the slice as it is. -/
theorem set_none_of_empty {V : Type} (m : SafeTagMap V) (t : Int)
    (h0 : 0 ≤ t) (hlt : t < m.values.length) (hs : slot m t = none) :
    m.values.set t.toNat none = m.values := by
  have hn : t.toNat < m.values.length := toNat_lt_length m.values t h0 hlt
  unfold slot LoadPointer at hs
  rw [List.getD_eq_getElem?_getD, List.getElem?_eq_getElem hn] at hs
  apply List.ext_getElem?
  intro i
  by_cases hi : t.toNat = i
  · subst hi
    rw [List.getElem?_set_self hn, List.getElem?_eq_getElem hn]
    exact congrArg some hs.symm
  · rw [List.getElem?_set_ne hi]

end StoreLemmas

/-! ## The plain store -/

section PlainStoreLemmas

open tagmap registry

theorem plain_GetByTag_unknown {V : Type} (m : tags.TagMap V) :
    tags.GetByTag m UnknownTag = (.error "index out of range", m) := by
  have h : ¬ ((0 : Int) ≤ (-1 : Int) ∧ (-1 : Int) < (m.values.length : Int)) := by omega
  unfold tags.GetByTag UnknownTag
  rw [if_neg h]

theorem plain_SetByTag_unknown {V : Type} (m : tags.TagMap V) (v : V) :
    tags.SetByTag m UnknownTag v = (.error "index out of range", m) := by
  have h : ¬ ((0 : Int) ≤ (-1 : Int) ∧ (-1 : Int) < (m.values.length : Int)) := by omega
  unfold tags.SetByTag UnknownTag
  rw [if_neg h]

theorem plain_GetByTag_state {V : Type} (m : tags.TagMap V) (t : Int) :
    (tags.GetByTag m t).2 = m := by
  unfold tags.GetByTag
  split
  · split <;> rfl
  · rfl

theorem plain_GetByTag_inRange {V : Type} (m : tags.TagMap V) (t : Int)
    (h0 : 0 ≤ t) (hlt : t < m.values.length) :
    ∃ v : V, m.values[t.toNat]? = some v ∧ tags.GetByTag m t = (.ok v, m) := by
  have hn : t.toNat < m.values.length := by omega
  refine ⟨m.values[t.toNat], List.getElem?_eq_getElem hn, ?_⟩
  unfold tags.GetByTag
  rw [if_pos ⟨h0, hlt⟩, List.getElem?_eq_getElem hn]

theorem plain_SetByTag_inRange {V : Type} (m : tags.TagMap V) (t : Int) (v : V)
    (h0 : 0 ≤ t) (hlt : t < m.values.length) :
    tags.SetByTag m t v = (.ok (), { m with values := m.values.set t.toNat v }) := by
  unfold tags.SetByTag
  rw [if_pos ⟨h0, hlt⟩]

theorem plain_GetByName_state {V : Type} (m : tags.TagMap V) (name : TagName) :
    (tags.GetByName m name).2 = m :=
  plain_GetByTag_state m _

theorem plain_getValuesByNameLoop_state {V : Type} (m : tags.TagMap V) (names : List TagName) :
    ∀ (idx : Nat) (out : List V), (tags.getValuesByNameLoop m names idx out).2 = m := by
  induction names with
  | nil => intro idx out; rfl
  | cons n rest ih =>
    intro idx out
    have hst := plain_GetByName_state m n
    rcases h : tags.GetByName m n with ⟨(e | v), m1⟩
    · rw [h] at hst
      simp only [tags.getValuesByNameLoop, h]
      exact hst
    · rw [h] at hst
      simp only at hst
      subst hst
      simp only [tags.getValuesByNameLoop, h]
      exact ih _ _

/-- The loop of the plain `GetValuesByName` faults when a name still to visit
makes `GetByName` fault. -/
theorem plain_getValuesByNameLoop_error {V : Type} (m : tags.TagMap V)
    (names : List TagName) (name : TagName) (hmem : name ∈ names)
    (hbad : ∃ msg, (tags.GetByName m name).1 = .error msg) :
    ∀ (idx : Nat) (out : List V),
      ∃ msg, (tags.getValuesByNameLoop m names idx out).1 = .error msg := by
  induction names with
  | nil => exact absurd hmem (List.not_mem_nil name)
  | cons n rest ih =>
    intro idx out
    have hst := plain_GetByName_state m n
    rcases h : tags.GetByName m n with ⟨(e | v), m1⟩
    · simp only [tags.getValuesByNameLoop, h]
      exact ⟨e, rfl⟩
    · rw [h] at hst
      simp only at hst
      subst hst
      simp only [tags.getValuesByNameLoop, h]
      rcases List.mem_cons.1 hmem with heq | hrest
      · subst heq
        obtain ⟨msg, hmsg⟩ := hbad
        rw [h] at hmsg
        exact Except.noConfusion hmsg
      · exact ih hrest _ _

/-- The loop of the plain `GetValuesByTag` fills the output in the order of its
tags when every `GetByTag` returns. -/
theorem plain_getValuesByTagLoop_eq {V : Type} [Inhabited V] (m : tags.TagMap V) (f : Int → V) (xs : List Int) :
    ∀ pre : List V, (∀ x ∈ xs, tags.GetByTag m x = (.ok (f x), m)) →
      tags.getValuesByTagLoop m xs pre.length (pre ++ List.replicate xs.length default) =
        (.ok (pre ++ xs.map f), m) := by
  induction xs with
  | nil => intro pre _; simp [tags.getValuesByTagLoop]
  | cons x rest ih =>
    intro pre h
    have hx := h x (List.mem_cons_self x rest)
    have hset : (pre ++ List.replicate (rest.length + 1) (default : V)).set pre.length (f x) =
        (pre ++ [f x]) ++ List.replicate rest.length default := by
      simp [List.set_append, List.replicate_succ]
    have := ih (pre ++ [f x]) (fun y hy => h y (List.mem_cons_of_mem x hy))
    simp only [List.length_append, List.length_singleton] at this
    simp only [tags.getValuesByTagLoop, hx, List.length_cons, hset, this]
    simp

/-- The loop of the plain `GetValuesByName` fills the output in the order of its
names when every `GetByName` returns. -/
theorem plain_getValuesByNameLoop_eq {V : Type} [Inhabited V] (m : tags.TagMap V) (f : TagName → V) (xs : List TagName) :
    ∀ pre : List V, (∀ x ∈ xs, tags.GetByName m x = (.ok (f x), m)) →
      tags.getValuesByNameLoop m xs pre.length (pre ++ List.replicate xs.length default) =
        (.ok (pre ++ xs.map f), m) := by
  induction xs with
  | nil => intro pre _; simp [tags.getValuesByNameLoop]
  | cons x rest ih =>
    intro pre h
    have hx := h x (List.mem_cons_self x rest)
    have hset : (pre ++ List.replicate (rest.length + 1) (default : V)).set pre.length (f x) =
        (pre ++ [f x]) ++ List.replicate rest.length default := by
      simp [List.set_append, List.replicate_succ]
    have := ih (pre ++ [f x]) (fun y hy => h y (List.mem_cons_of_mem x hy))
    simp only [List.length_append, List.length_singleton] at this
    simp only [tags.getValuesByNameLoop, hx, List.length_cons, hset, this]
    simp

theorem plain_GetByTag_getD {V : Type} [Inhabited V] (m : tags.TagMap V) (t : Int)
    (h0 : 0 ≤ t) (hlt : t < m.values.length) :
    tags.GetByTag m t = (.ok (m.values.getD t.toNat default), m) := by
  have hn : t.toNat < m.values.length := by omega
  unfold tags.GetByTag
  rw [if_pos ⟨h0, hlt⟩, List.getD_eq_getElem?_getD, List.getElem?_eq_getElem hn]
  rfl

theorem plain_GetByTag_outOfRange {V : Type} (m : tags.TagMap V) (t : Int)
    (h : ¬ (0 ≤ t ∧ t < m.values.length)) :
    tags.GetByTag m t = (.error "index out of range", m) := by
  unfold tags.GetByTag
  rw [if_neg h]

theorem plain_SetByTag_outOfRange {V : Type} (m : tags.TagMap V) (t : Int) (v : V)
    (h : ¬ (0 ≤ t ∧ t < m.values.length)) :
    tags.SetByTag m t v = (.error "index out of range", m) := by
  unfold tags.SetByTag
  rw [if_neg h]

/-- What the plain `GetByTagOrSet` does for a tag inside the slice: it stores
and returns a zero `val`, and for any other `val` it returns the slot as it is. -/
theorem plain_GetByTagOrSet_inRange {V : Type} [Inhabited V] [DecidableEq V]
    (m : tags.TagMap V) (t : Int) (val : V) (h0 : 0 ≤ t) (hlt : t < m.values.length) :
    (val = default →
        tags.GetByTagOrSet m t val =
          (.ok (val, false), { m with values := m.values.set t.toNat val })) ∧
      (val ≠ default →
        tags.GetByTagOrSet m t val = (.ok (m.values.getD t.toNat default, true), m)) := by
  constructor
  · intro hz
    simp only [tags.GetByTagOrSet, plain_GetByTag_getD m t h0 hlt, hz, if_true,
      plain_SetByTag_inRange m t default h0 hlt]
  · intro hz
    simp only [tags.GetByTagOrSet, plain_GetByTag_getD m t h0 hlt, hz, if_false]

theorem agree_length {V : Type} [Inhabited V] (m : stags.SafeTagMap V) (pm : tags.TagMap V)
    (h : tags.Agree m pm) : pm.values.length = m.values.length := by
  unfold tags.Agree at h
  rw [h, List.length_map]

/-- Slot by slot, the plain store holds what the atomic store reads. -/
theorem agree_getD {V : Type} [Inhabited V] (m : stags.SafeTagMap V) (pm : tags.TagMap V)
    (h : tags.Agree m pm) (t : Int) (h0 : 0 ≤ t) (hlt : t < m.values.length) :
    pm.values.getD t.toNat default = (stags.slot m t).getD default := by
  have hn : t.toNat < m.values.length := by omega
  unfold tags.Agree at h
  unfold stags.slot stags.LoadPointer
  rw [h, List.getD_eq_getElem?_getD, List.getD_eq_getElem?_getD, List.getElem?_map,
    List.getElem?_eq_getElem hn]
  rfl

theorem agree_set {V : Type} [Inhabited V] (m : stags.SafeTagMap V) (pm : tags.TagMap V)
    (h : tags.Agree m pm) (i : Nat) (p : Option V) :
    tags.Agree ({ values := m.values.set i p, registry := m.registry } : stags.SafeTagMap V)
      ({ pm with values := pm.values.set i (p.getD default) } : tags.TagMap V) := by
  unfold tags.Agree at h ⊢
  simp only [h, List.map_set]

theorem agree_GetByTag {V : Type} [Inhabited V] (m : stags.SafeTagMap V) (pm : tags.TagMap V)
    (h : tags.Agree m pm) (t : Int) :
    (stags.GetByTag m t).1 = (tags.GetByTag pm t).1 := by
  by_cases hr : 0 ≤ t ∧ t < m.values.length
  · have hr' : t < (pm.values.length : Int) := by rw [agree_length m pm h]; exact hr.2
    rw [GetByTag_inRange m t hr.1 hr.2, plain_GetByTag_getD pm t hr.1 hr',
      agree_getD m pm h t hr.1 hr.2]
  · have hr' : ¬ (0 ≤ t ∧ t < (pm.values.length : Int)) := by
      rw [agree_length m pm h]; exact hr
    rw [plain_GetByTag_outOfRange pm t hr']
    simp [stags.GetByTag, slotIndex_outOfRange _ _ hr]

theorem agree_SetByTag {V : Type} [Inhabited V] (m : stags.SafeTagMap V) (pm : tags.TagMap V)
    (h : tags.Agree m pm) (t : Int) (v : V) :
    (stags.SetByTag m t v).1 = (tags.SetByTag pm t v).1 ∧
      tags.Agree (stags.SetByTag m t v).2 (tags.SetByTag pm t v).2 := by
  by_cases hr : 0 ≤ t ∧ t < m.values.length
  · have hr' : t < (pm.values.length : Int) := by rw [agree_length m pm h]; exact hr.2
    rw [SetByTag_inRange m t v hr.1 hr.2, plain_SetByTag_inRange pm t v hr.1 hr']
    exact ⟨rfl, agree_set m pm h t.toNat (some v)⟩
  · have hr' : ¬ (0 ≤ t ∧ t < (pm.values.length : Int)) := by
      rw [agree_length m pm h]; exact hr
    rw [plain_SetByTag_outOfRange pm t v hr']
    simp only [stags.SetByTag, slotIndex_outOfRange _ _ hr]
    exact ⟨trivial, h⟩

theorem agree_DeleteByTag {V : Type} [Inhabited V] (m : stags.SafeTagMap V) (pm : tags.TagMap V)
    (h : tags.Agree m pm) (t : Int) :
    (stags.DeleteByTag m t).1 = (tags.DeleteByTag pm t).1 ∧
      tags.Agree (stags.DeleteByTag m t).2 (tags.DeleteByTag pm t).2 := by
  unfold tags.DeleteByTag
  by_cases hr : 0 ≤ t ∧ t < m.values.length
  · have hr' : t < (pm.values.length : Int) := by rw [agree_length m pm h]; exact hr.2
    rw [DeleteByTag_inRange m t hr.1 hr.2, plain_SetByTag_inRange pm t default hr.1 hr']
    exact ⟨rfl, agree_set m pm h t.toNat none⟩
  · have hr' : ¬ (0 ≤ t ∧ t < (pm.values.length : Int)) := by
      rw [agree_length m pm h]; exact hr
    rw [plain_SetByTag_outOfRange pm t default hr']
    simp only [stags.DeleteByTag, slotIndex_outOfRange _ _ hr]
    exact ⟨trivial, h⟩

theorem agree_GetByTagAndDelete {V : Type} [Inhabited V] (m : stags.SafeTagMap V)
    (pm : tags.TagMap V) (h : tags.Agree m pm) (t : Int) :
    (stags.GetByTagAndDelete m t).1 = (tags.GetByTagAndDelete pm t).1 ∧
      tags.Agree (stags.GetByTagAndDelete m t).2 (tags.GetByTagAndDelete pm t).2 := by
  by_cases hr : 0 ≤ t ∧ t < m.values.length
  · have hr' : t < (pm.values.length : Int) := by rw [agree_length m pm h]; exact hr.2
    rw [GetByTagAndDelete_inRange m t hr.1 hr.2]
    simp only [tags.GetByTagAndDelete, plain_GetByTag_getD pm t hr.1 hr',
      plain_SetByTag_inRange pm t default hr.1 hr', agree_getD m pm h t hr.1 hr.2]
    exact ⟨trivial, agree_set m pm h t.toNat none⟩
  · have hr' : ¬ (0 ≤ t ∧ t < (pm.values.length : Int)) := by
      rw [agree_length m pm h]; exact hr
    simp only [tags.GetByTagAndDelete, plain_GetByTag_outOfRange pm t hr',
      stags.GetByTagAndDelete, slotIndex_outOfRange _ _ hr]
    exact ⟨trivial, h⟩

theorem plain_getValuesByTagLoop_state {V : Type} (m : tags.TagMap V) (ts : List Tag) :
    ∀ (idx : Nat) (out : List V), (tags.getValuesByTagLoop m ts idx out).2 = m := by
  induction ts with
  | nil => intro idx out; rfl
  | cons t rest ih =>
    intro idx out
    have hst := plain_GetByTag_state m t
    rcases h : tags.GetByTag m t with ⟨(e | v), m1⟩
    · rw [h] at hst
      simp only [tags.getValuesByTagLoop, h]
      exact hst
    · rw [h] at hst
      simp only at hst
      subst hst
      simp only [tags.getValuesByTagLoop, h]
      exact ih _ _

/-- The two loops of `GetValuesByTag` return the same list or fault alike. -/
theorem agree_getValuesByTagLoop {V : Type} [Inhabited V] (m : stags.SafeTagMap V)
    (pm : tags.TagMap V) (h : tags.Agree m pm) (ts : List Tag) :
    ∀ (idx : Nat) (out : List V),
      (stags.getValuesByTagLoop m ts idx out).1 = (tags.getValuesByTagLoop pm ts idx out).1 := by
  induction ts with
  | nil => intro idx out; rfl
  | cons t rest ih =>
    intro idx out
    have heq := agree_GetByTag m pm h t
    have hs1 := GetByTag_state m t
    have hs2 := plain_GetByTag_state pm t
    rcases h1 : stags.GetByTag m t with ⟨r1, m1⟩
    rcases h2 : tags.GetByTag pm t with ⟨r2, pm1⟩
    rw [h1] at heq hs1
    rw [h2] at heq hs2
    simp only at heq hs1 hs2
    subst heq hs1 hs2
    cases r1 with
    | error e => simp only [stags.getValuesByTagLoop, tags.getValuesByTagLoop, h1, h2]
    | ok v =>
      simp only [stags.getValuesByTagLoop, tags.getValuesByTagLoop, h1, h2]
      exact ih _ _

/-- One shared by-tag call returns the same on both stores, or faults on
both, and leaves them in agreement. -/
theorem agree_runByTag {V : Type} [Inhabited V] (m : stags.SafeTagMap V) (pm : tags.TagMap V)
    (h : tags.Agree m pm) (c : ByTagCall V) :
    (stags.runByTag m c).1 = (tags.runByTag pm c).1 ∧
      tags.Agree (stags.runByTag m c).2 (tags.runByTag pm c).2 := by
  cases c with
  | setByTag t v =>
    obtain ⟨h1, h2⟩ := agree_SetByTag m pm h t v
    exact ⟨by simp only [stags.runByTag, tags.runByTag, h1], h2⟩
  | deleteByTag t =>
    obtain ⟨h1, h2⟩ := agree_DeleteByTag m pm h t
    exact ⟨by simp only [stags.runByTag, tags.runByTag, h1], h2⟩
  | getByTag t =>
    refine ⟨by simp only [stags.runByTag, tags.runByTag, agree_GetByTag m pm h t], ?_⟩
    simp only [stags.runByTag, tags.runByTag, GetByTag_state, plain_GetByTag_state]
    exact h
  | getByTagAndDelete t =>
    obtain ⟨h1, h2⟩ := agree_GetByTagAndDelete m pm h t
    exact ⟨by simp only [stags.runByTag, tags.runByTag, h1], h2⟩
  | getValuesByTag ts =>
    refine ⟨?_, ?_⟩
    · simp only [stags.runByTag, tags.runByTag, stags.GetValuesByTag, tags.GetValuesByTag,
        agree_getValuesByTagLoop m pm h ts]
    · simp only [stags.runByTag, tags.runByTag, stags.GetValuesByTag, tags.GetValuesByTag,
        getValuesByTagLoop_state, plain_getValuesByTagLoop_state]
      exact h

theorem agree_trace {V : Type} [Inhabited V] (calls : List (ByTagCall V)) :
    ∀ (m : stags.SafeTagMap V) (pm : tags.TagMap V), tags.Agree m pm →
      stags.trace m calls = tags.trace pm calls := by
  induction calls with
  | nil => intro m pm _; rfl
  | cons c cs ih =>
    intro m pm h
    obtain ⟨h1, h2⟩ := agree_runByTag m pm h c
    simp only [stags.trace, tags.trace, h1, ih _ _ h2]

theorem agree_New {V : Type} [Inhabited V] (r : TagRegistry) :
    tags.Agree (stags.New r : stags.SafeTagMap V) (tags.New r) := by
  simp [tags.Agree, stags.New, tags.New]

/-- The loop of the plain `ValuesByTag` adds one entry for every value it
visits, under the index of the value. -/
theorem plain_valuesByTagLoop_spec {V : Type} (vs : List V) :
    ∀ (idx : Nat) (out : List (Tag × V)),
      (∀ k : Nat, idx ≤ k → mapGet out (k : Int) = none) →
      (∀ (t : Int) (v : V),
          mapGet (tags.valuesByTagLoop idx vs out) t = some v ↔
            (mapGet out t = some v ∨ ∃ j : Nat, vs[j]? = some v ∧ t = ((idx + j : Nat) : Int))) ∧
        (tags.valuesByTagLoop idx vs out).length = out.length + vs.length := by
  induction vs with
  | nil =>
    intro idx out _
    simp [tags.valuesByTagLoop]
  | cons x rest ih =>
    intro idx out hfresh
    have hidx : mapGet out (idx : Int) = none := hfresh idx (Nat.le_refl idx)
    have hfresh' : ∀ k : Nat, idx + 1 ≤ k → mapGet (mapSet out (idx : Int) x) (k : Int) = none := by
      intro k hk
      have hne : ¬ ((idx : Int) = (k : Int)) := by
        intro heq
        have : idx = k := Int.ofNat_inj.1 heq
        omega
      rw [mapGet_mapSet, if_neg hne]
      exact hfresh k (by omega)
    obtain ⟨hiff, hlen⟩ := ih (idx + 1) (mapSet out (idx : Int) x) hfresh'
    simp only [tags.valuesByTagLoop]
    constructor
    · intro t v
      rw [hiff, mapGet_mapSet]
      constructor
      · rintro (h | ⟨j, hj, ht⟩)
        · by_cases heq : (idx : Int) = t
          · rw [if_pos heq] at h
            exact Or.inr ⟨0, by simpa using Option.some.inj h, by simpa using heq.symm⟩
          · rw [if_neg heq] at h
            exact Or.inl h
        · refine Or.inr ⟨j + 1, by simpa using hj, ?_⟩
          rw [ht]
          congr 1
          omega
      · rintro (h | ⟨j, hj, ht⟩)
        · have hne : ¬ ((idx : Int) = t) := by
            intro heq
            rw [← heq, hidx] at h
            exact Option.noConfusion h
          rw [if_neg hne]
          exact Or.inl h
        · cases j with
          | zero =>
            have hx : x = v := by simpa using hj
            have ht' : (idx : Int) = t := by simpa using ht.symm
            rw [if_pos ht', hx]
            exact Or.inl rfl
          | succ j =>
            refine Or.inr ⟨j, by simpa using hj, ?_⟩
            rw [ht]
            congr 1
            omega
    · have hl : (mapSet out (idx : Int) x).length = out.length + 1 := by
        rw [mapSet_fresh out _ x hidx, List.length_append, List.length_singleton]
      rw [hlen, hl, List.length_cons]
      omega

/-- The loop of the plain `ValuesByName` returns and adds one entry for every
value it visits, under the name of the index of the value, when the indices
have names and the registry invariant holds. -/
theorem plain_valuesByNameLoop_spec {V : Type} (r : TagRegistry) (hinv : Inv r) (vs : List V) :
    ∀ (idx : Nat) (out : List (TagName × V)), idx + vs.length ≤ r.tags.length →
      (∀ k : Nat, idx ≤ k → k < r.tags.length → mapGet out (r.tags.getD k "") = none) →
      ∃ res : List (TagName × V), tags.valuesByNameLoop r idx vs out = .ok res ∧
        (∀ (name : TagName) (v : V),
          mapGet res name = some v ↔
            (mapGet out name = some v ∨
              ∃ j : Nat, vs[j]? = some v ∧ r.tags[idx + j]? = some name)) ∧
        res.length = out.length + vs.length := by
  induction vs with
  | nil =>
    intro idx out _ _
    exact ⟨out, rfl, by simp, by simp⟩
  | cons x rest ih =>
    intro idx out hb hfresh
    have hi : idx < r.tags.length := by
      simp only [List.length_cons] at hb
      omega
    have hgi : r.tags[idx]? = some (r.tags.getD idx "") := by
      rw [List.getD_eq_getElem?_getD, List.getElem?_eq_getElem hi]
      rfl
    have hname : GetName r (idx : Int) = .ok (r.tags.getD idx "") :=
      GetName_of_getElem r idx _ hgi
    have hidx : mapGet out (r.tags.getD idx "") = none := hfresh idx (Nat.le_refl idx) hi
    have hfresh' : ∀ k : Nat, idx + 1 ≤ k → k < r.tags.length →
        mapGet (mapSet out (r.tags.getD idx "") x) (r.tags.getD k "") = none := by
      intro k hk hkl
      have hne : ¬ (r.tags.getD idx "" = r.tags.getD k "") := by
        intro heq
        have : idx = k := inv_names_injective r hinv idx k hi hkl heq
        omega
      rw [mapGet_mapSet, if_neg hne]
      exact hfresh k (by omega) hkl
    have hb' : idx + 1 + rest.length ≤ r.tags.length := by
      simp only [List.length_cons] at hb
      omega
    obtain ⟨res, hres, hiff, hlen⟩ := ih (idx + 1) (mapSet out (r.tags.getD idx "") x) hb' hfresh'
    refine ⟨res, by simp only [tags.valuesByNameLoop, hname, hres], ?_, ?_⟩
    · intro name v
      rw [hiff, mapGet_mapSet]
      constructor
      · rintro (h | ⟨j, hj, ht⟩)
        · by_cases heq : r.tags.getD idx "" = name
          · rw [if_pos heq] at h
            refine Or.inr ⟨0, by simpa using Option.some.inj h, ?_⟩
            rw [Nat.add_zero, hgi, heq]
          · rw [if_neg heq] at h
            exact Or.inl h
        · refine Or.inr ⟨j + 1, by simpa using hj, ?_⟩
          have : idx + (j + 1) = idx + 1 + j := by omega
          rw [this]
          exact ht
      · rintro (h | ⟨j, hj, ht⟩)
        · have hne : ¬ (r.tags.getD idx "" = name) := by
            intro heq
            rw [← heq, hidx] at h
            exact Option.noConfusion h
          rw [if_neg hne]
          exact Or.inl h
        · cases j with
          | zero =>
            have hx : x = v := by simpa using hj
            rw [Nat.add_zero, hgi] at ht
            rw [if_pos (Option.some.inj ht), hx]
            exact Or.inl rfl
          | succ j =>
            refine Or.inr ⟨j, by simpa using hj, ?_⟩
            have : idx + 1 + j = idx + (j + 1) := by omega
            rw [this]
            exact ht
    · have hl : (mapSet out (r.tags.getD idx "") x).length = out.length + 1 := by
        rw [mapSet_fresh out _ x hidx, List.length_append, List.length_singleton]
      rw [hlen, hl, List.length_cons]
      omega

/-- What the snapshots of the plain store hold: on a plain store whose
registry was built from `New` and has at least as many names as the store has
slots, `ValuesByTag` has one entry for every slot, the value the slot holds,
and nothing else; `ValuesByName` returns a map with one entry for every slot
under the name of its tag; so every tag inside the slice has an entry, a slot
that was never set included, and after `DeleteByTag t` the entry of `t` is the
zero value. -/
theorem plain_snapshots_hold_every_slot {V : Type} [Inhabited V] (calls : List Call)
    (pm : tags.TagMap V) (hm : pm.registry = runCalls registry.New calls)
    (hlen : (pm.values.length : Int) ≤ GetLen pm.registry) :
    (∀ (t : Int) (v : V),
        mapGet (tags.ValuesByTag pm) t = some v ↔
          (0 ≤ t ∧ t < pm.values.length ∧ pm.values[t.toNat]? = some v)) ∧
      (tags.ValuesByTag pm).length = pm.values.length ∧
      (∃ byName : List (TagName × V), tags.ValuesByName pm = .ok byName ∧
        (∀ (name : TagName) (v : V),
          mapGet byName name = some v ↔
            ∃ t : Int, 0 ≤ t ∧ t < pm.values.length ∧ GetName pm.registry t = .ok name ∧
              pm.values[t.toNat]? = some v) ∧
        byName.length = pm.values.length) ∧
      (∀ t : Int, 0 ≤ t → t < pm.values.length →
        (∃ v : V, mapGet (tags.ValuesByTag pm) t = some v) ∧
          mapGet (tags.ValuesByTag (tags.DeleteByTag pm t).2) t = some default) := by
  have hinv : Inv pm.registry := by
    rw [hm]
    exact inv_reachable calls
  have hn : pm.values.length ≤ pm.registry.tags.length := by
    unfold GetLen at hlen
    omega
  have htag : ∀ (qm : tags.TagMap V) (t : Int) (v : V),
      mapGet (tags.ValuesByTag qm) t = some v ↔
        (0 ≤ t ∧ t < qm.values.length ∧ qm.values[t.toNat]? = some v) := by
    intro qm t v
    obtain ⟨hiff, _⟩ := plain_valuesByTagLoop_spec qm.values 0 [] (fun _ _ => rfl)
    unfold tags.ValuesByTag
    rw [hiff]
    constructor
    · rintro (h | ⟨j, hj, ht⟩)
      · exact Option.noConfusion h
      · have hjl : j < qm.values.length := (List.getElem?_eq_some.1 hj).1
        subst ht
        refine ⟨Int.ofNat_nonneg _, Int.ofNat_lt.2 (by omega), ?_⟩
        simpa using hj
    · rintro ⟨h0, _, hv⟩
      refine Or.inr ⟨t.toNat, hv, ?_⟩
      rw [Nat.zero_add]
      exact (Int.toNat_of_nonneg h0).symm
  refine ⟨htag pm, ?_, ?_, ?_⟩
  · obtain ⟨_, hl⟩ := plain_valuesByTagLoop_spec pm.values 0 [] (fun _ _ => rfl)
    unfold tags.ValuesByTag
    rw [hl]
    simp
  · obtain ⟨res, hres, hiff, hl⟩ := plain_valuesByNameLoop_spec pm.registry hinv pm.values 0 []
      (by omega) (fun _ _ _ => rfl)
    refine ⟨res, hres, ?_, by rw [hl]; simp⟩
    intro name v
    rw [hiff]
    constructor
    · rintro (h | ⟨j, hj, ht⟩)
      · exact Option.noConfusion h
      · have hjl : j < pm.values.length := (List.getElem?_eq_some.1 hj).1
        rw [Nat.zero_add] at ht
        refine ⟨(j : Int), Int.ofNat_nonneg _, Int.ofNat_lt.2 hjl,
          GetName_of_getElem _ j name ht, ?_⟩
        simpa using hj
    · rintro ⟨t, h0, hlt, hk, hv⟩
      refine Or.inr ⟨t.toNat, hv, ?_⟩
      have hi : t.toNat < pm.registry.tags.length := by omega
      have hg := GetName_of_getElem pm.registry t.toNat _ (List.getElem?_eq_getElem hi)
      rw [Int.toNat_of_nonneg h0, hk] at hg
      rw [Nat.zero_add, List.getElem?_eq_getElem hi, Except.ok.inj hg]
  · intro t h0 hlt
    have hi : t.toNat < pm.values.length := by omega
    constructor
    · exact ⟨pm.values[t.toNat], (htag pm t _).2 ⟨h0, hlt, List.getElem?_eq_getElem hi⟩⟩
    · unfold tags.DeleteByTag
      rw [plain_SetByTag_inRange pm t default h0 hlt]
      apply (htag _ t default).2
      refine ⟨h0, by simpa using hlt, ?_⟩
      simp [List.getElem?_set_self hi]

/-- The snapshot by tag of the plain test store with slot `0` set and then
deleted. -/
theorem plain_snapshots_hold_every_slot_at_test_store :
    (((tags.SetByTag tags.testTagMap 0 "A").2.values.length : Int) ≤
        GetLen (tags.SetByTag tags.testTagMap 0 "A").2.registry) ∧
      (tags.ValuesByTag (tags.SetByTag tags.testTagMap 0 "A").2).length = 3 ∧
      mapGet (tags.ValuesByTag
        (tags.DeleteByTag (tags.SetByTag tags.testTagMap 0 "A").2 0).2) 0 = some "" :=
  ⟨by decide,
    (plain_snapshots_hold_every_slot
      [.registerTag "tag1", .registerTag "tag2", .registerTag "tag3"]
      (tags.SetByTag tags.testTagMap 0 "A").2 rfl (by decide)).2.1,
    ((plain_snapshots_hold_every_slot
      [.registerTag "tag1", .registerTag "tag2", .registerTag "tag3"]
      (tags.SetByTag tags.testTagMap 0 "A").2 rfl (by decide)).2.2.2 0
      (by decide) (by decide)).2⟩

end PlainStoreLemmas

/-! ## The store: claims -/

section StoreClaims

open tagmap registry stags

/-- C8: for a tag inside the slice and any value `v`, the zero value included,
`SetByTag t v` returns and a following `GetByTag t` returns `v`, whatever the
slot held before; and `GetByTag` returns the store it was given, for every store
and every tag. -/
theorem C8_set_then_get_round_trip {V : Type} [Inhabited V] (m : SafeTagMap V) (t : Int) (v : V)
    (h0 : 0 ≤ t) (hlt : t < m.values.length) :
    (SetByTag m t v).1 = .ok () ∧
      GetByTag (SetByTag m t v).2 t = (.ok v, (SetByTag m t v).2) ∧
      ∀ (m' : SafeTagMap V) (t' : Int), (GetByTag m' t').2 = m' := by
  rw [SetByTag_inRange m t v h0 hlt]
  refine ⟨rfl, ?_, GetByTag_state⟩
  have hlen : t < (({ values := m.values.set t.toNat (some v), registry := m.registry } :
      SafeTagMap V).values.length : Int) := by
    simp only [List.length_set]
    exact hlt
  rw [GetByTag_inRange _ t h0 hlen, slot_set_same m t (some v) h0 hlt]
  rfl

/-- C8 on the test store with slot `0` holding a string: storing the empty
string, the zero value, reads back as the empty string. -/
theorem C8_set_then_get_round_trip_witness :
    (0 : Int) ≤ 0 ∧ (0 : Int) < ((SetByTag testTagMap 0 "SetByTag1").2.values.length : Int) ∧
      GetByTag (SetByTag (SetByTag testTagMap 0 "SetByTag1").2 0 "").2 0 =
        (.ok "", (SetByTag (SetByTag testTagMap 0 "SetByTag1").2 0 "").2) :=
  ⟨by decide, by decide,
    (C8_set_then_get_round_trip (SetByTag testTagMap 0 "SetByTag1").2 0 ""
      (by decide) (by decide)).2.1⟩

/-- C9: for a tag inside the slice, `GetByTagOrSet t v` on an empty slot stores
`v` in that slot and returns `(v, false)`; on a slot holding `w` it returns
`(w, true)` and the store it was given, also when `w` is a zero value stored
with `SetByTag`. So on an empty slot two calls in a row return `(v, false)` and
then `(v, true)`, and `GetByTag t` then returns `v`. -/
theorem C9_get_or_set {V : Type} [Inhabited V] (m : SafeTagMap V) (t : Int) (v v2 : V)
    (h0 : 0 ≤ t) (hlt : t < m.values.length) :
    (slot m t = none →
        GetByTagOrSet m t v =
          (.ok (v, false), { values := m.values.set t.toNat (some v), registry := m.registry })) ∧
      (∀ w : V, slot m t = some w → GetByTagOrSet m t v = (.ok (w, true), m)) ∧
      GetByTagOrSet (SetByTag m t default).2 t v = (.ok (default, true), (SetByTag m t default).2) ∧
      (slot m t = none →
        (GetByTagOrSet m t v).1 = .ok (v, false) ∧
          GetByTagOrSet (GetByTagOrSet m t v).2 t v2 = (.ok (v, true), (GetByTagOrSet m t v).2) ∧
          (GetByTag (GetByTagOrSet (GetByTagOrSet m t v).2 t v2).2 t).1 = .ok v) := by
  have hlen : ∀ p : Option V, t < (({ values := m.values.set t.toNat p, registry := m.registry } :
      SafeTagMap V).values.length : Int) := by
    intro p
    simp only [List.length_set]
    exact hlt
  refine ⟨GetByTagOrSet_empty m t v h0 hlt, fun w => GetByTagOrSet_occupied m t v w h0 hlt, ?_, ?_⟩
  · rw [SetByTag_inRange m t default h0 hlt]
    exact GetByTagOrSet_occupied _ t v default h0 (hlen _) (slot_set_same m t _ h0 hlt)
  · intro hs
    rw [GetByTagOrSet_empty m t v h0 hlt hs]
    have h2 := GetByTagOrSet_occupied _ t v2 v h0 (hlen (some v)) (slot_set_same m t _ h0 hlt)
    refine ⟨rfl, h2, ?_⟩
    rw [h2, GetByTag_inRange _ t h0 (hlen (some v)), slot_set_same m t _ h0 hlt]
    rfl

/-- C9 on the empty slot `1` of the test store, and on its slot `0` after the
empty string was stored there. -/
theorem C9_get_or_set_witness :
    (0 : Int) ≤ 1 ∧ (1 : Int) < (testTagMap.values.length : Int) ∧ slot testTagMap 1 = none ∧
      ((GetByTagOrSet testTagMap 1 "v").1 = .ok ("v", false) ∧
        GetByTagOrSet (GetByTagOrSet testTagMap 1 "v").2 1 "v2" =
          (.ok ("v", true), (GetByTagOrSet testTagMap 1 "v").2) ∧
        (GetByTag (GetByTagOrSet (GetByTagOrSet testTagMap 1 "v").2 1 "v2").2 1).1 = .ok "v") :=
  ⟨by decide, by decide, rfl,
    (C9_get_or_set testTagMap 1 "v" "v2" (by decide) (by decide)).2.2.2 rfl⟩

/-- C10: for a tag inside the slice, `GetByTagAndDelete t` returns the value
held by slot `t`, or the zero value when the slot is empty, and leaves the slot
empty and every other slot as it was; a second call right after returns the
zero value. -/
theorem C10_get_and_delete {V : Type} [Inhabited V] (m : SafeTagMap V) (t : Int)
    (h0 : 0 ≤ t) (hlt : t < m.values.length) :
    (GetByTagAndDelete m t).1 = .ok ((slot m t).getD default) ∧
      (GetByTagAndDelete m t).2 =
        { values := m.values.set t.toNat none, registry := m.registry } ∧
      slot (GetByTagAndDelete m t).2 t = none ∧
      (GetByTagAndDelete (GetByTagAndDelete m t).2 t).1 = .ok default := by
  have hlen : t < (({ values := m.values.set t.toNat none, registry := m.registry } :
      SafeTagMap V).values.length : Int) := by
    simp only [List.length_set]
    exact hlt
  rw [GetByTagAndDelete_inRange m t h0 hlt]
  refine ⟨rfl, rfl, slot_set_same m t none h0 hlt, ?_⟩
  rw [GetByTagAndDelete_inRange _ t h0 hlen, slot_set_same m t none h0 hlt]
  rfl

/-- C10 on the test store with slot `2` holding a string: the first call
returns it, the second returns the empty string. -/
theorem C10_get_and_delete_witness :
    (0 : Int) ≤ 2 ∧ (2 : Int) < ((SetByTag testTagMap 2 "SetByTag3").2.values.length : Int) ∧
      (GetByTagAndDelete (SetByTag testTagMap 2 "SetByTag3").2 2).1 = .ok "SetByTag3" ∧
      (GetByTagAndDelete (GetByTagAndDelete (SetByTag testTagMap 2 "SetByTag3").2 2).2 2).1 =
        .ok "" :=
  ⟨by decide, by decide,
    (C10_get_and_delete (SetByTag testTagMap 2 "SetByTag3").2 2 (by decide) (by decide)).1,
    (C10_get_and_delete (SetByTag testTagMap 2 "SetByTag3").2 2 (by decide) (by decide)).2.2.2⟩

/-- C11: for a tag inside the slice, `DeleteByTag t` returns and leaves the
slot empty whatever it held: `GetByTag t` then returns the zero value, a
following `GetByTagOrSet t v` returns `(v, false)`, and a second `DeleteByTag t`
leaves the store of the first. -/
theorem C11_delete_empties_slot {V : Type} [Inhabited V] (m : SafeTagMap V) (t : Int) (v : V)
    (h0 : 0 ≤ t) (hlt : t < m.values.length) :
    (DeleteByTag m t).1 = .ok () ∧
      slot (DeleteByTag m t).2 t = none ∧
      (GetByTag (DeleteByTag m t).2 t).1 = .ok default ∧
      (GetByTagOrSet (DeleteByTag m t).2 t v).1 = .ok (v, false) ∧
      DeleteByTag (DeleteByTag m t).2 t = (.ok (), (DeleteByTag m t).2) := by
  have hlen : t < (({ values := m.values.set t.toNat none, registry := m.registry } :
      SafeTagMap V).values.length : Int) := by
    simp only [List.length_set]
    exact hlt
  have hs := slot_set_same m t none h0 hlt
  rw [DeleteByTag_inRange m t h0 hlt]
  refine ⟨rfl, hs, ?_, ?_, ?_⟩
  · rw [GetByTag_inRange _ t h0 hlen, hs]
    rfl
  · rw [GetByTagOrSet_empty _ t v h0 hlen hs]
  · rw [DeleteByTag_inRange _ t h0 hlen]
    simp

/-- C11 on the test store with slot `0` holding a string. -/
theorem C11_delete_empties_slot_witness :
    (0 : Int) ≤ 0 ∧ (0 : Int) < ((SetByTag testTagMap 0 "SetByTag1").2.values.length : Int) ∧
      (GetByTag (DeleteByTag (SetByTag testTagMap 0 "SetByTag1").2 0).2 0).1 = .ok "" ∧
      (GetByTagOrSet (DeleteByTag (SetByTag testTagMap 0 "SetByTag1").2 0).2 0 "v").1 =
        .ok ("v", false) :=
  ⟨by decide, by decide,
    (C11_delete_empties_slot (SetByTag testTagMap 0 "SetByTag1").2 0 "v"
      (by decide) (by decide)).2.2.1,
    (C11_delete_empties_slot (SetByTag testTagMap 0 "SetByTag1").2 0 "v"
      (by decide) (by decide)).2.2.2.1⟩

/-- C12: `stags.New r` has exactly `r.GetLen()` slots, all nil; `GetByTag t`
returns the zero value for every `t` with `0 <= t < r.GetLen()`, and
`ValuesByTag` and `ValuesByName` return empty maps. -/
theorem C12_new_store_is_empty {V : Type} [Inhabited V] (r : TagRegistry) :
    (((stags.New r : SafeTagMap V).values.length : Int) = GetLen r) ∧
      (∀ i : Nat, i < (stags.New r : SafeTagMap V).values.length →
        (stags.New r : SafeTagMap V).values[i]? = some none) ∧
      (∀ t : Int, 0 ≤ t → t < GetLen r →
        GetByTag (stags.New r : SafeTagMap V) t = (.ok default, stags.New r)) ∧
      ValuesByTag (stags.New r : SafeTagMap V) = [] ∧
      ValuesByName (stags.New r : SafeTagMap V) = .ok [] := by
  have hlen : ((stags.New r : SafeTagMap V).values.length : Int) = GetLen r := by
    simp [stags.New, GetLen]
  refine ⟨hlen, ?_, ?_, ?_, ?_⟩
  · intro i hi
    simp only [stags.New, List.length_replicate] at hi
    simp [stags.New, List.getElem?_replicate, hi]
  · intro t h0 hlt
    rw [← hlen] at hlt
    rw [GetByTag_inRange _ t h0 hlt]
    simp [slot, stags.New, LoadPointer_replicate]
  · simp only [ValuesByTag, stags.New]
    exact valuesByTagLoop_empty _ _ _
  · exact valuesByNameLoop_empty _ _ rfl _ _

/-- C12 on the registry of the store test: slot `2` of a new store reads as
the empty string. -/
theorem C12_new_store_is_empty_witness :
    GetByTag (stags.New testRegistry : SafeTagMap String) 2 = (.ok "", stags.New testRegistry) :=
  (C12_new_store_is_empty testRegistry).2.2.1 2 (by decide) (by decide)

/-- C13: for a name whose tag lies inside the slice of the store, every
by-name method returns the result and the store of the by-tag method called
with `GetTag name`; so after `SetByTag (GetTag name) v` the call `GetByName name`
returns `v`, and after `SetByName name v` the call `GetByTag (GetTag name)`
returns `v`. -/
theorem C13_by_name_agrees_with_by_tag {V : Type} [Inhabited V] (m : SafeTagMap V)
    (name : TagName) (h0 : 0 ≤ GetTag m.registry name)
    (hlt : GetTag m.registry name < m.values.length) :
    GetByName m name = GetByTag m (GetTag m.registry name) ∧
      (∀ v : V, SetByName m name v = SetByTag m (GetTag m.registry name) v) ∧
      (∀ p : Option V, SetByName2 m name p = SetByTag2 m (GetTag m.registry name) p) ∧
      (∀ v : V, GetByNameOrSet m name v = GetByTagOrSet m (GetTag m.registry name) v) ∧
      (∀ p : Option V, GetByNameOrSet2 m name p = GetByTagOrSet2 m (GetTag m.registry name) p) ∧
      GetByNameAndDelete m name = GetByTagAndDelete m (GetTag m.registry name) ∧
      DeleteByName m name = DeleteByTag m (GetTag m.registry name) ∧
      (∀ v : V, (GetByName (SetByTag m (GetTag m.registry name) v).2 name).1 = .ok v) ∧
      (∀ v : V, (GetByTag (SetByName m name v).2 (GetTag m.registry name)).1 = .ok v) := by
  have hk := getTag_known m name (ne_unknown_of_nonneg _ h0)
  have hget : ∀ v : V,
      (GetByTag (SetByTag m (GetTag m.registry name) v).2 (GetTag m.registry name)).1 = .ok v := by
    intro v
    rw [SetByTag_inRange m _ v h0 hlt]
    have hlen : GetTag m.registry name <
        (({ values := m.values.set (GetTag m.registry name).toNat (some v),
            registry := m.registry } : SafeTagMap V).values.length : Int) := by
      simp only [List.length_set]
      exact hlt
    rw [GetByTag_inRange _ _ h0 hlen, slot_set_same m _ (some v) h0 hlt]
    rfl
  refine ⟨?_, ?_, ?_, ?_, ?_, ?_, ?_, ?_, ?_⟩
  · simp only [GetByName, hk]
  · intro v
    simp only [SetByName, hk]
  · intro p
    simp only [SetByName2, hk]
  · intro v
    simp only [GetByNameOrSet, hk]
  · intro p
    simp only [GetByNameOrSet2, hk]
  · simp only [GetByNameAndDelete, hk]
  · simp only [DeleteByName, hk]
  · intro v
    have hreg : (SetByTag m (GetTag m.registry name) v).2.registry = m.registry := by
      rw [SetByTag_inRange m _ v h0 hlt]
    have hk2 := getTag_known (SetByTag m (GetTag m.registry name) v).2 name
      (by rw [hreg]; exact ne_unknown_of_nonneg _ h0)
    simp only [GetByName, hk2, hreg]
    exact hget v
  · intro v
    simp only [SetByName, hk]
    exact hget v

/-- C13 on the test store and the name `tag2`, whose tag is `1`. -/
theorem C13_by_name_agrees_with_by_tag_witness :
    (0 : Int) ≤ GetTag testTagMap.registry "tag2" ∧
      GetTag testTagMap.registry "tag2" < (testTagMap.values.length : Int) ∧
      GetByName testTagMap "tag2" = GetByTag testTagMap (GetTag testTagMap.registry "tag2") ∧
      (GetByName (SetByTag testTagMap (GetTag testTagMap.registry "tag2") "SetByTag2").2
        "tag2").1 = .ok "SetByTag2" :=
  ⟨by decide, by decide,
    (C13_by_name_agrees_with_by_tag testTagMap "tag2" (by decide) (by decide)).1,
    (C13_by_name_agrees_with_by_tag testTagMap "tag2" (by decide)
      (by decide)).2.2.2.2.2.2.2.1 "SetByTag2"⟩

/-- C14: a by-name method called with a name that was never registered in
the registry of the store faults and returns the store it was given, on the
atomic store and on the plain store; so does `GetValuesByName` when one of its
names was never registered. -/
theorem C14_unregistered_name_faults {V : Type} [Inhabited V] [DecidableEq V]
    (calls : List Call) (name : TagName) (m : SafeTagMap V) (pm : tags.TagMap V)
    (hm : m.registry = runCalls registry.New calls)
    (hpm : pm.registry = runCalls registry.New calls)
    (hun : ¬ Registered calls name) :
    ((∃ msg, GetByName m name = (.error msg, m)) ∧
        (∀ v : V, ∃ msg, SetByName m name v = (.error msg, m)) ∧
        (∀ p : Option V, ∃ msg, SetByName2 m name p = (.error msg, m)) ∧
        (∀ v : V, ∃ msg, GetByNameOrSet m name v = (.error msg, m)) ∧
        (∀ p : Option V, ∃ msg, GetByNameOrSet2 m name p = (.error msg, m)) ∧
        (∃ msg, GetByNameAndDelete m name = (.error msg, m)) ∧
        (∃ msg, DeleteByName m name = (.error msg, m)) ∧
        (∀ names : List TagName, name ∈ names →
          ∃ msg, GetValuesByName m names = (.error msg, m))) ∧
      ((∃ msg, tags.GetByName pm name = (.error msg, pm)) ∧
        (∀ v : V, ∃ msg, tags.SetByName pm name v = (.error msg, pm)) ∧
        (∀ v : V, ∃ msg, tags.GetByNameOrSet pm name v = (.error msg, pm)) ∧
        (∃ msg, tags.GetByNameAndDelete pm name = (.error msg, pm)) ∧
        (∃ msg, tags.DeleteByName pm name = (.error msg, pm)) ∧
        (∀ names : List TagName, name ∈ names →
          ∃ msg, tags.GetValuesByName pm names = (.error msg, pm))) := by
  have hg : GetTag m.registry name = UnknownTag := by
    rw [hm]
    exact GetTag_of_not_registered calls name hun
  have hpg : GetTag pm.registry name = UnknownTag := by
    rw [hpm]
    exact GetTag_of_not_registered calls name hun
  have hu := getTag_unknown m name hg
  have hget : ∃ msg, GetByName m name = (.error msg, m) := by
    simp only [GetByName, hu]
    exact ⟨_, rfl⟩
  have hpget : ∃ msg, tags.GetByName pm name = (.error msg, pm) := by
    simp only [tags.GetByName, tags.TagByName, hpg, plain_GetByTag_unknown]
    exact ⟨_, rfl⟩
  refine ⟨⟨hget, ?_, ?_, ?_, ?_, ?_, ?_, ?_⟩, ⟨hpget, ?_, ?_, ?_, ?_, ?_⟩⟩
  · intro v
    simp only [SetByName, hu]
    exact ⟨_, rfl⟩
  · intro p
    simp only [SetByName2, hu]
    exact ⟨_, rfl⟩
  · intro v
    simp only [GetByNameOrSet, hu]
    exact ⟨_, rfl⟩
  · intro p
    simp only [GetByNameOrSet2, hu]
    exact ⟨_, rfl⟩
  · simp only [GetByNameAndDelete, hu]
    exact ⟨_, rfl⟩
  · simp only [DeleteByName, hu]
    exact ⟨_, rfl⟩
  · intro names hmem
    obtain ⟨msg0, h0⟩ := hget
    obtain ⟨msg, hmsg⟩ := getValuesByNameLoop_error m names name hmem ⟨msg0, by rw [h0]⟩ 0
      (List.replicate names.length default)
    exact ⟨msg, Prod.ext hmsg (getValuesByNameLoop_state m names _ _)⟩
  · intro v
    simp only [tags.SetByName, tags.TagByName, hpg, plain_SetByTag_unknown]
    exact ⟨_, rfl⟩
  · intro v
    simp only [tags.GetByNameOrSet, tags.GetByTagOrSet, tags.TagByName, hpg,
      plain_GetByTag_unknown]
    exact ⟨_, rfl⟩
  · simp only [tags.GetByNameAndDelete, tags.GetByTagAndDelete, tags.TagByName, hpg,
      plain_GetByTag_unknown]
    exact ⟨_, rfl⟩
  · simp only [tags.DeleteByName, tags.DeleteByTag, tags.TagByName, hpg,
      plain_SetByTag_unknown]
    exact ⟨_, rfl⟩
  · intro names hmem
    obtain ⟨msg0, h0⟩ := hpget
    obtain ⟨msg, hmsg⟩ := plain_getValuesByNameLoop_error pm names name hmem ⟨msg0, by rw [h0]⟩ 0
      (List.replicate names.length default)
    exact ⟨msg, Prod.ext hmsg (plain_getValuesByNameLoop_state pm names _ _)⟩

/-- C14 on the two test stores and the name `tag4`, which the tests never
register. -/
theorem C14_unregistered_name_faults_witness :
    ¬ Registered [.registerTag "tag1", .registerTag "tag2", .registerTag "tag3"] "tag4" ∧
      (∃ msg, GetByName testTagMap "tag4" = (.error msg, testTagMap)) ∧
      (∃ msg, tags.SetByName tags.testTagMap "tag4" "v" = (.error msg, tags.testTagMap)) :=
  have hun : ¬ Registered [.registerTag "tag1", .registerTag "tag2", .registerTag "tag3"]
      "tag4" := by
    rintro ⟨c, hc, hname⟩
    simp only [List.mem_cons, List.mem_singleton, List.not_mem_nil, or_false] at hc
    rcases hc with h | h | h <;> subst h <;> exact absurd hname (by decide)
  ⟨hun,
    (C14_unregistered_name_faults
      [.registerTag "tag1", .registerTag "tag2", .registerTag "tag3"] "tag4"
      testTagMap tags.testTagMap rfl rfl hun).1.1,
    (C14_unregistered_name_faults
      [.registerTag "tag1", .registerTag "tag2", .registerTag "tag3"] "tag4"
      testTagMap tags.testTagMap rfl rfl hun).2.2.1 "v"⟩

/-- C15: a store built by `stags.New r` keeps `r.GetLen()` slots through every
sequence of by-tag calls, by-name calls and later registrations in its registry;
on such a store a by-tag call faults exactly when its tag is negative or at
least `r.GetLen()`, so it returns for `0 <= tag < r.GetLen()`, and a faulting
call returns the store it was given. -/
theorem C15_slot_count_is_fixed {V : Type} [Inhabited V] (r : TagRegistry)
    (events : List (Event V)) (o : Op V) :
    (((runEvents (stags.New r) events).values.length : Int) = GetLen r) ∧
      ((∃ msg, (o.run (runEvents (stags.New r) events)).1 = .error msg) ↔
        (o.tag < 0 ∨ GetLen r ≤ o.tag)) ∧
      ((0 ≤ o.tag ∧ o.tag < GetLen r) →
        ∃ ret : Ret V, (o.run (runEvents (stags.New r) events)).1 = .ok ret) ∧
      ((∃ msg, (o.run (runEvents (stags.New r) events)).1 = .error msg) →
        (o.run (runEvents (stags.New r) events)).2 = runEvents (stags.New r) events) := by
  have hlen : ((runEvents (stags.New r : SafeTagMap V) events).values.length : Int) =
      GetLen r := by
    rw [runEvents_length]
    simp [stags.New, GetLen]
  refine ⟨hlen, ?_, ?_, ?_⟩
  · rw [Op_run_error_iff, hlen]
  · rintro ⟨h0, hlt⟩
    rw [← hlen] at hlt
    obtain ⟨ret, hret, _⟩ := Op_run_inRange _ o h0 hlt
    exact ⟨ret, hret⟩
  · intro herr
    by_cases h : 0 ≤ o.tag ∧ o.tag < (runEvents (stags.New r : SafeTagMap V) events).values.length
    · obtain ⟨ret, hret, _⟩ := Op_run_inRange _ o h.1 h.2
      obtain ⟨msg, hmsg⟩ := herr
      rw [hret] at hmsg
      exact Except.noConfusion hmsg
    · rw [Op_run_outOfRange _ o h]

/-- C15 on the test store after `tag4` is registered in its registry: the
store still has three slots, `GetByTag 3` faults and `GetByTag 2` returns. -/
theorem C15_slot_count_is_fixed_witness :
    (((runEvents testTagMap [.register (.registerTag "tag4")]).values.length : Int) = 3) ∧
      (∃ msg, ((Op.getByTag 3).run
        (runEvents testTagMap [.register (.registerTag "tag4")])).1 = .error msg) ∧
      (∃ ret : Ret String, ((Op.getByTag 2).run
        (runEvents testTagMap [.register (.registerTag "tag4")])).1 = .ok ret) :=
  ⟨(C15_slot_count_is_fixed testRegistry [.register (.registerTag "tag4")] (.getByTag 3)).1,
    (C15_slot_count_is_fixed testRegistry [.register (.registerTag "tag4")]
      (.getByTag 3)).2.1.2 (Or.inr (by decide)),
    (C15_slot_count_is_fixed testRegistry [.register (.registerTag "tag4")]
      (.getByTag 2)).2.2.1 ⟨by decide, by decide⟩⟩

/-- C19: a by-tag call changes no slot other than the slot of its tag, and a
by-name call no slot other than the slot of `GetTag name`; both leave the
number of slots and the registry as they were. -/
theorem C19_slots_are_independent {V : Type} [Inhabited V] (m : SafeTagMap V)
    (o : Op V) (n : NameOp V) :
    ((o.run m).2.values.length = m.values.length ∧ (o.run m).2.registry = m.registry ∧
        ∀ i : Nat, (i : Int) ≠ o.tag → (o.run m).2.values[i]? = m.values[i]?) ∧
      ((n.run m).2.values.length = m.values.length ∧ (n.run m).2.registry = m.registry ∧
        ∀ i : Nat, (i : Int) ≠ GetTag m.registry n.name →
          (n.run m).2.values[i]? = m.values[i]?) :=
  ⟨frame_of_state m _ o.tag (Op_run_state m o),
    frame_of_state m _ (GetTag m.registry n.name) (NameOp_run_state m n)⟩

/-- C19 on the test store with slot `0` filled: `SetByName tag2` leaves slot
`0` as it was. -/
theorem C19_slots_are_independent_witness :
    ((NameOp.setByName "tag2" "B").run (SetByTag testTagMap 0 "A").2).2.values[0]? =
      (SetByTag testTagMap 0 "A").2.values[0]? :=
  (C19_slots_are_independent (SetByTag testTagMap 0 "A").2 (.getByTag 0)
    (.setByName "tag2" "B")).2.2.2 0 (by decide)

/-- C16, refuted as stated: after `tag4` is registered in the registry of the
test stores, `IsTagName tag4` holds on both stores, yet `GetByName tag4` and
`SetByName tag4` fault on both, because the stores still have three slots. -/
theorem C16_counterexample :
    (IsTagName grownTagMap "tag4" = true ∧
        (GetByName grownTagMap "tag4").1 = .error "index out of range" ∧
        (SetByName grownTagMap "tag4" "v").1 = .error "index out of range") ∧
      (tags.IsTagName tags.grownTagMap "tag4" = true ∧
        (tags.GetByName tags.grownTagMap "tag4").1 = .error "index out of range" ∧
        (tags.SetByName tags.grownTagMap "tag4" "v").1 = .error "index out of range") :=
  ⟨⟨rfl, rfl, rfl⟩, ⟨rfl, rfl, rfl⟩⟩

/-- C16, amended: on a store whose registry was built from `New`, if
`IsTagName name` holds and `TagByName name` is below the number of slots of the
store, then `GetByName name` and `SetByName name v` return; this holds for the
atomic store and for the plain store. -/
theorem C16_validated_name_in_slot_range_is_safe {V : Type} [Inhabited V]
    (calls : List Call) (name : TagName) (v : V) (m : SafeTagMap V) (pm : tags.TagMap V)
    (hm : m.registry = runCalls registry.New calls)
    (hpm : pm.registry = runCalls registry.New calls) :
    (IsTagName m name = true → TagByName m name < m.values.length →
        (∃ x : V, (GetByName m name).1 = .ok x) ∧ (SetByName m name v).1 = .ok ()) ∧
      (tags.IsTagName pm name = true → tags.TagByName pm name < pm.values.length →
        (∃ x : V, (tags.GetByName pm name).1 = .ok x) ∧ (tags.SetByName pm name v).1 = .ok ()) := by
  constructor
  · intro his hlt
    simp only [IsTagName, bne_iff_ne, ne_eq] at his
    simp only [TagByName] at hlt
    have h0 : 0 ≤ GetTag m.registry name := by
      rw [hm] at his ⊢
      exact (GetTag_nonneg_of_known calls name his).1
    have hk := getTag_known m name his
    constructor
    · simp only [GetByName, hk, GetByTag_inRange m _ h0 hlt]
      exact ⟨_, rfl⟩
    · simp only [SetByName, hk, SetByTag_inRange m _ v h0 hlt]
  · intro his hlt
    simp only [tags.IsTagName, bne_iff_ne, ne_eq] at his
    simp only [tags.TagByName] at hlt
    have h0 : 0 ≤ GetTag pm.registry name := by
      rw [hpm] at his ⊢
      exact (GetTag_nonneg_of_known calls name his).1
    constructor
    · obtain ⟨x, _, hx⟩ := plain_GetByTag_inRange pm _ h0 hlt
      simp only [tags.GetByName, tags.TagByName, hx]
      exact ⟨_, rfl⟩
    · simp only [tags.SetByName, tags.TagByName, plain_SetByTag_inRange pm _ v h0 hlt]

/-- C16, amended, on the test stores and the name `tag3`. -/
theorem C16_validated_name_in_slot_range_is_safe_witness :
    (IsTagName grownTagMap "tag3" = true ∧
        TagByName grownTagMap "tag3" < (grownTagMap.values.length : Int)) ∧
      ((∃ x : String, (GetByName grownTagMap "tag3").1 = .ok x) ∧
        (SetByName grownTagMap "tag3" "v").1 = .ok ()) :=
  ⟨⟨rfl, by decide⟩,
    (C16_validated_name_in_slot_range_is_safe
      [.registerTag "tag1", .registerTag "tag2", .registerTag "tag3", .registerTag "tag4"]
      "tag3" "v" grownTagMap tags.grownTagMap rfl rfl).1 rfl (by decide)⟩

/-- C17: on a store whose registry was built from `New` and has at least as
many names as the store has slots, `ValuesByTag` has the entry `t -> v` exactly
when slot `t` holds `v`, and then `GetByTag t` returns `v`; `ValuesByName`
returns a map that has the entry `name -> v` exactly when `name` is `GetName t`
for a slot `t` holding `v`; the two maps have the same number of entries, and
the entry of `name` in the second is the entry of `GetTag name` in the first. -/
theorem C17_snapshots_hold_occupied_slots {V : Type} [Inhabited V] (calls : List Call)
    (m : SafeTagMap V) (hm : m.registry = runCalls registry.New calls)
    (hlen : (m.values.length : Int) ≤ GetLen m.registry) :
    (∀ (t : Int) (v : V),
        mapGet (ValuesByTag m) t = some v ↔ (0 ≤ t ∧ t < m.values.length ∧ slot m t = some v)) ∧
      (∀ (t : Int) (v : V), mapGet (ValuesByTag m) t = some v → (GetByTag m t).1 = .ok v) ∧
      ∃ byName : List (TagName × V), ValuesByName m = .ok byName ∧
        (∀ (name : TagName) (v : V),
          mapGet byName name = some v ↔
            ∃ t : Int, 0 ≤ t ∧ t < m.values.length ∧ GetName m.registry t = .ok name ∧
              slot m t = some v) ∧
        byName.length = (ValuesByTag m).length ∧
        ∀ name : TagName, mapGet byName name = mapGet (ValuesByTag m) (GetTag m.registry name) := by
  have hinv : Inv m.registry := by
    rw [hm]
    exact inv_reachable calls
  have hn : m.values.length ≤ m.registry.tags.length := by
    unfold GetLen at hlen
    omega
  have hb : ∀ i ∈ List.range m.values.length, i < m.registry.tags.length :=
    fun i hi => Nat.lt_of_lt_of_le (List.mem_range.1 hi) hn
  have hinj : ∀ i ∈ List.range m.values.length, ∀ j ∈ List.range m.values.length,
      m.registry.tags.getD i "" = m.registry.tags.getD j "" → i = j :=
    fun i hi j hj h => inv_names_injective m.registry hinv i j (hb i hi) (hb j hj) h
  have hVN : ValuesByName m =
      .ok ((List.range m.values.length).filterMap (fun i =>
        (LoadPointer m.values i).map (fun x => (m.registry.tags.getD i "", x)))) := by
    unfold ValuesByName
    rw [valuesByNameLoop_eq m _ (List.nodup_range _) hb hinj [] (fun _ _ => rfl)]
    rfl
  have hname : ∀ i : Nat, i < m.registry.tags.length →
      m.registry.tags[i]? = some (m.registry.tags.getD i "") := by
    intro i hi
    rw [List.getD_eq_getElem?_getD, List.getElem?_eq_getElem hi]
    rfl
  have hentry : ∀ (name : TagName) (v : V),
      mapGet ((List.range m.values.length).filterMap (fun i =>
        (LoadPointer m.values i).map (fun x => (m.registry.tags.getD i "", x)))) name = some v ↔
        ∃ i : Nat, i < m.values.length ∧ m.registry.tags[i]? = some name ∧
          LoadPointer m.values i = some v := by
    intro name v
    rw [mapGet_entries _ m.values _ (List.nodup_range _) hinj]
    constructor
    · rintro ⟨i, hi, hk, hv⟩
      refine ⟨i, List.mem_range.1 hi, ?_, hv⟩
      rw [hname i (hb i hi), hk]
    · rintro ⟨i, hi, hk, hv⟩
      refine ⟨i, List.mem_range.2 hi, ?_, hv⟩
      have := hname i (Nat.lt_of_lt_of_le hi hn)
      rw [hk] at this
      exact (Option.some.inj this).symm
  refine ⟨mapGet_ValuesByTag m, ?_, _, hVN, ?_, ?_, ?_⟩
  · intro t v h
    obtain ⟨h0, hlt, hs⟩ := (mapGet_ValuesByTag m t v).1 h
    rw [GetByTag_inRange m t h0 hlt, hs]
    rfl
  · intro name v
    rw [hentry]
    constructor
    · rintro ⟨i, hi, hk, hv⟩
      refine ⟨(i : Int), Int.ofNat_nonneg i, Int.ofNat_lt.2 hi,
        GetName_of_getElem _ i name hk, ?_⟩
      simpa [slot] using hv
    · rintro ⟨t, h0, hlt, hk, hv⟩
      have hi : t.toNat < m.values.length := by omega
      refine ⟨t.toNat, hi, ?_, hv⟩
      have hn2 := hname t.toNat (Nat.lt_of_lt_of_le hi hn)
      have hg := GetName_of_getElem _ _ _ hn2
      rw [Int.toNat_of_nonneg h0, hk] at hg
      rw [hn2, Except.ok.inj hg]
  · rw [ValuesByTag_eq]
    exact length_entries _ _ _ _
  · intro name
    apply Option.ext
    intro v
    simp only [Option.mem_def]
    rw [hentry, mapGet_ValuesByTag]
    constructor
    · rintro ⟨i, hi, hk, hv⟩
      rw [inv_GetTag_of_getElem _ hinv i name hk]
      refine ⟨Int.ofNat_nonneg i, Int.ofNat_lt.2 hi, ?_⟩
      simpa [slot] using hv
    · rintro ⟨h0, hlt, hv⟩
      have hpres : mapGet m.registry.backMap name ≠ none := by
        intro hnone
        have : GetTag m.registry name = UnknownTag := by simp [GetTag, hnone]
        exact ne_unknown_of_nonneg _ h0 this
      obtain ⟨i, hi, hget⟩ := inv_GetTag_range _ hinv name hpres
      rw [hi] at hlt hv
      refine ⟨i, Int.ofNat_lt.1 hlt, hget, ?_⟩
      simpa [slot] using hv

/-- C17 on the test store with slot `1` filled: the snapshot by tag has the
entry `1 -> B` and `GetByTag 1` returns `B`. -/
theorem C17_snapshots_hold_occupied_slots_witness :
    (((SetByTag testTagMap 1 "B").2.values.length : Int) ≤
        GetLen (SetByTag testTagMap 1 "B").2.registry) ∧
      mapGet (ValuesByTag (SetByTag testTagMap 1 "B").2) 1 = some "B" ∧
      (GetByTag (SetByTag testTagMap 1 "B").2 1).1 = .ok "B" :=
  ⟨by decide,
    ((C17_snapshots_hold_occupied_slots
      [.registerTag "tag1", .registerTag "tag2", .registerTag "tag3"]
      (SetByTag testTagMap 1 "B").2 rfl (by decide)).1 1 "B").2 ⟨by decide, by decide, rfl⟩,
    (C17_snapshots_hold_occupied_slots
      [.registerTag "tag1", .registerTag "tag2", .registerTag "tag3"]
      (SetByTag testTagMap 1 "B").2 rfl (by decide)).2.1 1 "B" rfl⟩

/-- C18, refuted as stated: `tag4` is registered in the registry of the grown
test stores, yet `GetValuesByName` with the list `tag1, tag4` faults on both
instead of returning a list, because the tag of `tag4` is outside their slots. -/
theorem C18_counterexample :
    (Registered [.registerTag "tag1", .registerTag "tag2", .registerTag "tag3",
          .registerTag "tag4"] "tag4" ∧
        grownTagMap.registry =
          runCalls registry.New [.registerTag "tag1", .registerTag "tag2", .registerTag "tag3",
            .registerTag "tag4"]) ∧
      (GetValuesByName grownTagMap ["tag1", "tag4"]).1 = .error "index out of range" ∧
      (tags.GetValuesByName tags.grownTagMap ["tag1", "tag4"]).1 = .error "index out of range" :=
  ⟨⟨⟨.registerTag "tag4", by decide, rfl⟩, rfl⟩, rfl, rfl⟩

/-- C18, amended: for every list of tags inside the slice, repetitions allowed,
`GetValuesByTag` returns a list of the same length whose i-th element is what
`GetByTag` returns for the i-th tag; for every list of names whose tags are
inside the slice, `GetValuesByName` returns a list of the same length whose i-th
element is what `GetByName` returns for the i-th name; both return the store
they were given, and an empty input gives an empty list. This holds on the
atomic store and on the plain store. -/
theorem C18_batch_reads_in_slot_range {V : Type} [Inhabited V] (m : SafeTagMap V)
    (pm : tags.TagMap V) (ts : List Int) (names : List TagName) :
    (((∀ t ∈ ts, 0 ≤ t ∧ t < m.values.length) →
          ∃ out : List V, GetValuesByTag m ts = (.ok out, m) ∧ out.length = ts.length ∧
            ∀ (i : Nat) (t : Int), ts[i]? = some t →
              ∃ v : V, out[i]? = some v ∧ GetByTag m t = (.ok v, m)) ∧
        ((∀ n ∈ names, 0 ≤ GetTag m.registry n ∧ GetTag m.registry n < m.values.length) →
          ∃ out : List V, GetValuesByName m names = (.ok out, m) ∧ out.length = names.length ∧
            ∀ (i : Nat) (n : TagName), names[i]? = some n →
              ∃ v : V, out[i]? = some v ∧ GetByName m n = (.ok v, m)) ∧
        GetValuesByTag m [] = (.ok [], m) ∧ GetValuesByName m [] = (.ok [], m)) ∧
      (((∀ t ∈ ts, 0 ≤ t ∧ t < pm.values.length) →
          ∃ out : List V, tags.GetValuesByTag pm ts = (.ok out, pm) ∧ out.length = ts.length ∧
            ∀ (i : Nat) (t : Int), ts[i]? = some t →
              ∃ v : V, out[i]? = some v ∧ tags.GetByTag pm t = (.ok v, pm)) ∧
        ((∀ n ∈ names, 0 ≤ GetTag pm.registry n ∧ GetTag pm.registry n < pm.values.length) →
          ∃ out : List V, tags.GetValuesByName pm names = (.ok out, pm) ∧
            out.length = names.length ∧
            ∀ (i : Nat) (n : TagName), names[i]? = some n →
              ∃ v : V, out[i]? = some v ∧ tags.GetByName pm n = (.ok v, pm)) ∧
        tags.GetValuesByTag pm [] = (.ok [], pm) ∧ tags.GetValuesByName pm [] = (.ok [], pm)) := by
  refine ⟨⟨?_, ?_, rfl, rfl⟩, ⟨?_, ?_, rfl, rfl⟩⟩
  · intro h
    have hf : ∀ t ∈ ts, GetByTag m t = (.ok ((slot m t).getD default), m) :=
      fun t ht => GetByTag_inRange m t (h t ht).1 (h t ht).2
    have hloop := getValuesByTagLoop_eq m (fun t => (slot m t).getD default) ts [] hf
    simp only [List.length_nil, List.nil_append] at hloop
    obtain ⟨hl, he⟩ := map_elems (fun t => (slot m t).getD default) ts
    refine ⟨_, hloop, hl, ?_⟩
    intro i t hi
    exact ⟨_, he i t hi, hf t (List.getElem?_mem hi)⟩
  · intro h
    have hf : ∀ n ∈ names,
        GetByName m n = (.ok ((slot m (GetTag m.registry n)).getD default), m) := by
      intro n hn
      have hk := getTag_known m n (ne_unknown_of_nonneg _ (h n hn).1)
      simp only [GetByName, hk]
      exact GetByTag_inRange m _ (h n hn).1 (h n hn).2
    have hloop := getValuesByNameLoop_eq m
      (fun n => (slot m (GetTag m.registry n)).getD default) names [] hf
    simp only [List.length_nil, List.nil_append] at hloop
    obtain ⟨hl, he⟩ := map_elems (fun n => (slot m (GetTag m.registry n)).getD default) names
    refine ⟨_, hloop, hl, ?_⟩
    intro i n hi
    exact ⟨_, he i n hi, hf n (List.getElem?_mem hi)⟩
  · intro h
    have hf : ∀ t ∈ ts, tags.GetByTag pm t = (.ok (pm.values.getD t.toNat default), pm) :=
      fun t ht => plain_GetByTag_getD pm t (h t ht).1 (h t ht).2
    have hloop := plain_getValuesByTagLoop_eq pm (fun t => pm.values.getD t.toNat default) ts [] hf
    simp only [List.length_nil, List.nil_append] at hloop
    obtain ⟨hl, he⟩ := map_elems (fun t : Int => pm.values.getD t.toNat default) ts
    refine ⟨_, hloop, hl, ?_⟩
    intro i t hi
    exact ⟨_, he i t hi, hf t (List.getElem?_mem hi)⟩
  · intro h
    have hf : ∀ n ∈ names,
        tags.GetByName pm n =
          (.ok (pm.values.getD (GetTag pm.registry n).toNat default), pm) :=
      fun n hn => plain_GetByTag_getD pm _ (h n hn).1 (h n hn).2
    have hloop := plain_getValuesByNameLoop_eq pm
      (fun n => pm.values.getD (GetTag pm.registry n).toNat default) names [] hf
    simp only [List.length_nil, List.nil_append] at hloop
    obtain ⟨hl, he⟩ :=
      map_elems (fun n => pm.values.getD (GetTag pm.registry n).toNat default) names
    refine ⟨_, hloop, hl, ?_⟩
    intro i n hi
    exact ⟨_, he i n hi, hf n (List.getElem?_mem hi)⟩

/-- C18, amended, on the grown test store with slot `1` filled: the tags
`1, 0, 1` and the names `tag2, tag1`. -/
theorem C18_batch_reads_in_slot_range_witness :
    (∀ t ∈ [(1 : Int), 0, 1], 0 ≤ t ∧ t < ((SetByTag grownTagMap 1 "B").2.values.length : Int)) ∧
      (∃ out : List String,
        GetValuesByTag (SetByTag grownTagMap 1 "B").2 [1, 0, 1] =
            (.ok out, (SetByTag grownTagMap 1 "B").2) ∧
          out.length = [(1 : Int), 0, 1].length ∧
          ∀ (i : Nat) (t : Int), [(1 : Int), 0, 1][i]? = some t →
            ∃ v : String, out[i]? = some v ∧
              GetByTag (SetByTag grownTagMap 1 "B").2 t = (.ok v, (SetByTag grownTagMap 1 "B").2)) ∧
      GetValuesByTag (SetByTag grownTagMap 1 "B").2 [1, 0, 1] =
        (.ok ["B", "", "B"], (SetByTag grownTagMap 1 "B").2) :=
  have h : ∀ t ∈ [(1 : Int), 0, 1],
      0 ≤ t ∧ t < ((SetByTag grownTagMap 1 "B").2.values.length : Int) := by decide
  ⟨h,
    (C18_batch_reads_in_slot_range (SetByTag grownTagMap 1 "B").2 tags.grownTagMap [1, 0, 1]
      ["tag2", "tag1"]).1.1 h,
    rfl⟩

/-- C24: for a tag inside the slice, `SetByTag2 t nil` is `DeleteByTag t`:
`GetByTag t` then returns the zero value and `ValuesByTag` has no entry for `t`;
`SetByTag2 t p` with `p` pointing to `w` makes `GetByTag t` return `w`; and on an
empty slot `GetByTagOrSet2 t nil` returns `(nil, false)` and the store it was
given, with the slot still empty, so a following `GetByTagOrSet t v` returns
`(v, false)`. -/
theorem C24_nil_pointer_is_empty {V : Type} [Inhabited V] (m : SafeTagMap V) (t : Int)
    (v w : V) (h0 : 0 ≤ t) (hlt : t < m.values.length) :
    SetByTag2 m t none = DeleteByTag m t ∧
      (GetByTag (SetByTag2 m t none).2 t).1 = .ok default ∧
      mapGet (ValuesByTag (SetByTag2 m t none).2) t = none ∧
      (GetByTag (SetByTag2 m t (some w)).2 t).1 = .ok w ∧
      (slot m t = none →
        GetByTagOrSet2 m t none = (.ok (none, false), m) ∧
          slot (GetByTagOrSet2 m t none).2 t = none ∧
          (GetByTagOrSet (GetByTagOrSet2 m t none).2 t v).1 = .ok (v, false)) := by
  have hlen : ∀ p : Option V, t < (({ values := m.values.set t.toNat p, registry := m.registry } :
      SafeTagMap V).values.length : Int) := by
    intro p
    simp only [List.length_set]
    exact hlt
  refine ⟨rfl, ?_, ?_, ?_, ?_⟩
  · rw [SetByTag2_inRange m t none h0 hlt, GetByTag_inRange _ t h0 (hlen none),
      slot_set_same m t none h0 hlt]
    rfl
  · rw [SetByTag2_inRange m t none h0 hlt]
    apply Option.eq_none_iff_forall_not_mem.2
    intro x hg
    have hx := ((mapGet_ValuesByTag _ t x).1 hg).2.2
    rw [slot_set_same m t none h0 hlt] at hx
    exact Option.noConfusion hx
  · rw [SetByTag2_inRange m t (some w) h0 hlt, GetByTag_inRange _ t h0 (hlen (some w)),
      slot_set_same m t (some w) h0 hlt]
    rfl
  · intro hs
    have hst : ({ values := m.values.set t.toNat none, registry := m.registry } :
        SafeTagMap V) = m := by
      rw [set_none_of_empty m t h0 hlt hs]
    rw [GetByTagOrSet2_empty m t none h0 hlt hs, hst]
    refine ⟨rfl, hs, ?_⟩
    rw [GetByTagOrSet_empty m t v h0 hlt hs]

/-- C24 on the test store: slot `0` after `SetByTag2` with a pointer to `w`, and
the empty slot `1`. -/
theorem C24_nil_pointer_is_empty_witness :
    (0 : Int) ≤ 1 ∧ (1 : Int) < (testTagMap.values.length : Int) ∧ slot testTagMap 1 = none ∧
      (GetByTag (SetByTag2 testTagMap 1 (some "w")).2 1).1 = .ok "w" ∧
      GetByTagOrSet2 testTagMap 1 none = (.ok (none, false), testTagMap) ∧
      (GetByTagOrSet (GetByTagOrSet2 testTagMap 1 none).2 1 "v").1 = .ok ("v", false) :=
  ⟨by decide, by decide, rfl,
    (C24_nil_pointer_is_empty testTagMap 1 "v" "w" (by decide) (by decide)).2.2.2.1,
    ((C24_nil_pointer_is_empty testTagMap 1 "v" "w" (by decide) (by decide)).2.2.2.2 rfl).1,
    ((C24_nil_pointer_is_empty testTagMap 1 "v" "w" (by decide) (by decide)).2.2.2.2 rfl).2.2⟩

end StoreClaims

/-! ## Threads -/

section ThreadLemmas

open tagmap registry stags

/-- A thread that runs alone does what the method does in the sequential
embedding: same outcome, same slots. -/
theorem Op_prog_run {V : Type} [Inhabited V] (m : SafeTagMap V) (o : Op V) :
    o.prog.run m.values = ((o.run m).1, (o.run m).2.values) := by
  cases o with
  | getByTag t =>
    simp only [Op.prog, Prog.run, Op.run, GetByTag]
    cases slotIndex m.values t with
    | error e => rfl
    | ok i => cases h : LoadPointer m.values i <;> simp [h, Prog.run, Except.map]
  | setByTag t v =>
    simp only [Op.prog, Prog.run, Op.run, SetByTag]
    cases slotIndex m.values t <;> rfl
  | setByTag2 t p =>
    simp only [Op.prog, Prog.run, Op.run, SetByTag2]
    cases slotIndex m.values t <;> rfl
  | getByTagOrSet t v =>
    simp only [Op.prog, Prog.run, Op.run, GetByTagOrSet]
    cases slotIndex m.values t with
    | error e => rfl
    | ok i =>
      cases hl : LoadPointer m.values i with
      | none => simp [CompareAndSwapPointer, hl, Prog.run, Except.map]
      | some w =>
        simp only [CompareAndSwapPointer, hl, Bool.false_eq_true, if_false, Prog.run]
        cases slotIndex m.values t with
        | error e => rfl
        | ok j => cases h2 : LoadPointer m.values j <;> simp [h2, Prog.run, Except.map]
  | getByTagOrSet2 t p =>
    simp only [Op.prog, Prog.run, Op.run, GetByTagOrSet2]
    cases slotIndex m.values t with
    | error e => rfl
    | ok i =>
      cases hl : LoadPointer m.values i with
      | none => simp [CompareAndSwapPointer, hl, Prog.run, Except.map]
      | some w =>
        simp only [CompareAndSwapPointer, hl, Bool.false_eq_true, if_false, Prog.run]
        cases slotIndex m.values t <;> rfl
  | getByTagAndDelete t =>
    simp only [Op.prog, Prog.run, Op.run, GetByTagAndDelete]
    cases slotIndex m.values t with
    | error e => rfl
    | ok i => cases h : LoadPointer m.values i <;> simp [h, Prog.run, Except.map]
  | deleteByTag t =>
    simp only [Op.prog, Prog.run, Op.run, DeleteByTag]
    cases slotIndex m.values t <;> rfl

/-- The same two calls one after the other, in either order, both return. -/
theorem get_or_set_and_delete_in_turn :
    (runSchedule [(Op.getByTagOrSet 0 "b").prog, (Op.deleteByTag 0).prog]
          (SetByTag testTagMap 0 "a").2.values [0, 0, 1]).1.map Prog.result =
        [some (.ok (.found "a" true)), some (.ok .unit)] ∧
      (runSchedule [(Op.getByTagOrSet 0 "b").prog, (Op.deleteByTag 0).prog]
          (SetByTag testTagMap 0 "a").2.values [1, 0]).1.map Prog.result =
        [some (.ok (.found "b" false)), some (.ok .unit)] :=
  ⟨rfl, rfl⟩

end ThreadLemmas

section ThreadClaims

open tagmap registry stags

/-- C20, the code at a failing schedule: slot `0` of the test store holds `a`;
thread 0 calls `GetByTagOrSet 0 b` and thread 1 calls `DeleteByTag 0`. Thread 0
does its compare-and-swap, which fails on the occupied slot; thread 1 stores
nil; thread 0 does its second load, reads nil and dereferences it. Thread 0 ends
in a nil pointer panic, thread 1 returns, and the slot is empty. -/
theorem C20_get_or_set_races_with_delete :
    (0 : Int) ≤ 0 ∧ (0 : Int) < ((SetByTag testTagMap 0 "a").2.values.length : Int) ∧
      (runSchedule [(Op.getByTagOrSet 0 "b").prog, (Op.deleteByTag 0).prog]
          (SetByTag testTagMap 0 "a").2.values [0, 1, 0]).1.map Prog.result =
        [some (.error "nil pointer dereference"), some (.ok .unit)] ∧
      (runSchedule [(Op.getByTagOrSet 0 "b").prog, (Op.deleteByTag 0).prog]
          (SetByTag testTagMap 0 "a").2.values [0, 1, 0]).2 = [none, none, none] :=
  ⟨by decide, by decide, rfl, rfl⟩

end ThreadClaims

/-! ## The plain store: claims -/

section PlainStoreClaims

open tagmap registry

/-- C21, the code at failing inputs: on the new plain test store
`GetByTagOrSet 0 v` with the non-zero `v` returns the zero value with `true` and
stores nothing, so `GetByTag 0` still returns the zero value; and on a slot
holding `a`, `GetByTagOrSet 0` with the zero value overwrites the slot and
returns the zero value with `false`. The method tests its argument `val` for
zero, not the value `e` it read from the slot. -/
theorem C21_get_or_set_tests_the_argument :
    tags.GetByTagOrSet tags.testTagMap 0 "v" = (.ok ("", true), tags.testTagMap) ∧
      (tags.GetByTag (tags.GetByTagOrSet tags.testTagMap 0 "v").2 0).1 = .ok "" ∧
      (tags.GetByTagOrSet (tags.SetByTag tags.testTagMap 0 "a").2 0 "").1 = .ok ("", false) ∧
      (tags.GetByTag (tags.GetByTagOrSet (tags.SetByTag tags.testTagMap 0 "a").2 0 "").2 0).1 =
        .ok "" :=
  ⟨rfl, rfl, rfl, rfl⟩

/-- C22: on a new plain store and a new atomic store built from the same
registry, every sequence of `SetByTag`, `DeleteByTag`, `GetByTag`,
`GetByTagAndDelete` and `GetValuesByTag` calls yields the same outcome at every
step: the same result, or a fault on both for a tag outside the slice. -/
theorem C22_stores_agree_on_shared_calls {V : Type} [Inhabited V] (r : TagRegistry)
    (calls : List (ByTagCall V)) :
    stags.trace (stags.New r) calls = tags.trace (tags.New r) calls := by
  have h0 : tags.Agree (stags.New r : stags.SafeTagMap V) (tags.New r) := agree_New r
  exact agree_trace calls _ _ h0

/-- C22 on the test registry, with the outcomes of one sequence of calls. -/
theorem C22_stores_agree_on_shared_calls_witness :
    stags.trace (stags.New stags.testRegistry)
        [.setByTag 1 "B", .getByTag 1, .getValuesByTag [1, 0, 1], .getByTagAndDelete 1,
          .deleteByTag 0, .getByTag 1] =
      tags.trace (tags.New stags.testRegistry)
        [.setByTag 1 "B", .getByTag 1, .getValuesByTag [1, 0, 1], .getByTagAndDelete 1,
          .deleteByTag 0, .getByTag 1] ∧
      tags.trace (tags.New stags.testRegistry)
        [.setByTag 1 "B", .getByTag 1, .getValuesByTag [1, 0, 1], .getByTagAndDelete 1,
          .deleteByTag 0, .getByTag 1] =
      [.ok .unit, .ok (.value "B"), .ok (.values ["B", "", "B"]), .ok (.value "B"),
        .ok .unit, .ok (.value "")] :=
  ⟨C22_stores_agree_on_shared_calls stags.testRegistry
      [.setByTag 1 "B", .getByTag 1, .getValuesByTag [1, 0, 1], .getByTagAndDelete 1,
        .deleteByTag 0, .getByTag 1],
    rfl⟩

/-- C23, the code at failing inputs: the snapshots of the new plain test store
are not empty, `ValuesByTag` and `ValuesByName` list each of the three slots
with the zero value; and after `DeleteByTag 0` on a store with slot `0` set,
`ValuesByTag` still has an entry for tag `0`, the zero value. The loops of the
plain store write every slot without a test. On the same inputs the snapshots
of the atomic store are empty and have no entry for the deleted tag. -/
theorem C23_plain_snapshots_list_empty_slots :
    (tags.ValuesByTag tags.testTagMap = [(0, ""), (1, ""), (2, "")] ∧
        tags.ValuesByName tags.testTagMap = .ok [("tag1", ""), ("tag2", ""), ("tag3", "")] ∧
        mapGet (tags.ValuesByTag (tags.DeleteByTag (tags.SetByTag tags.testTagMap 0 "A").2 0).2)
          0 = some "") ∧
      (stags.ValuesByTag stags.testTagMap = [] ∧
        stags.ValuesByName stags.testTagMap = .ok [] ∧
        mapGet (stags.ValuesByTag
          (stags.DeleteByTag (stags.SetByTag stags.testTagMap 0 "A").2 0).2) 0 = none) :=
  ⟨⟨rfl, rfl, rfl⟩, ⟨rfl, rfl, rfl⟩⟩

end PlainStoreClaims
